import Mathlib

/-!
Verification of the skip list implemented in `src/include/skip_list.hpp`
(`template <typename Key> class SkipList`).

The C++ structure is an intrusive pointer graph: a sentinel head node and
key-bearing nodes, each holding a vector `next` of forward pointers, one per
level the node participates in.  We embed it shallowly as an arena: nodes are
addressed by natural-number indices into a list `nodes`; a `Node*` becomes an
`Option Nat` (`none` is `nullptr`); `delete` leaves the record in the arena as
unreachable garbage.  The random number generator (`dist_(rng_)` compared with
`probability_`) is modelled by a stream `coins : List Bool` of the outcomes of
the comparisons `dist_(rng_) < probability_`; drawing consumes the head of the
stream.  The unbounded `while` walks over pointers become fuel-based recursion
with fuel `nodes.length + 1`, which is enough for every state reachable through
the public interface (proved below via the representation invariant).
-/

/-- `struct Node` of `skip_list.hpp` (lines 25-30): one immutable key plus the
vector `next` of forward pointers, one per level.  `next.length` is the node's
level span. -/
structure SkipList.Node (α : Type) where
  key : α
  next : List (Option Nat)
deriving Repr, DecidableEq

/-- The state of a `SkipList<Key>` object (`skip_list.hpp` lines 156-163):
the arena of nodes, the index of the sentinel `head_`, the current height
`maxLevel_`, the configured cap `maxAllowedLevel_`, and the randomness state.
`probability_` itself only matters through the comparison outcomes, which are
the entries of `coins`. -/
structure SkipList (α : Type) where
  nodes : List (SkipList.Node α)
  head : Nat
  maxLevel : Nat
  maxAllowedLevel : Nat
  coins : List Bool
deriving Repr, DecidableEq

variable {α : Type} [LinearOrder α] [Inhabited α]

/-- The `next` vector of the node with index `n` (empty if the index is not a
live arena slot; the C++ code never dereferences such an index). -/
def SkipList.nextList (st : SkipList α) (n : Nat) : List (Option Nat) :=
  match st.nodes[n]? with
  | some nd => nd.next
  | none => []

/-- The level span of node `n`: `next.size()` in C++. -/
def SkipList.levelOf (st : SkipList α) (n : Nat) : Nat :=
  (st.nextList n).length

/-- The key stored at node `n` (`default` stands for the default-constructed
key of the sentinel, which the code never compares). -/
def SkipList.keyAt (st : SkipList α) (n : Nat) : α :=
  match st.nodes[n]? with
  | some nd => nd.key
  | none => default

/-- The forward pointer `n->next[i]`; out-of-range reads (undefined behaviour
in C++, never exercised on reachable states) are totalised to `none`. -/
def SkipList.nextPtr (st : SkipList α) (n i : Nat) : Option Nat :=
  (st.nextList n).getD i none

/-- Replace the `next` vector of node `n` in an arena. -/
def SkipList.setNodeNext (nodes : List (SkipList.Node α)) (n : Nat)
    (l : List (Option Nat)) : List (SkipList.Node α) :=
  match nodes[n]? with
  | some nd => nodes.set n ⟨nd.key, l⟩
  | none => nodes

/-- The pointer assignment `n->next[i] = v`. -/
def SkipList.setNextPtr (st : SkipList α) (n i : Nat) (v : Option Nat) :
    SkipList α :=
  { st with nodes := SkipList.setNodeNext st.nodes n ((st.nextList n).set i v) }

/-- `std::vector::resize(n, v)`: truncate or pad with `v` up to length `n`. -/
def SkipList.resizeFill (l : List (Option Nat)) (n : Nat) (v : Option Nat) :
    List (Option Nat) :=
  l.take n ++ List.replicate (n - l.length) v

/-- The loop of `randomLevel` (`skip_list.hpp` lines 253-259):
`while (dist_(rng_) < probability_ && level < maxAllowedLevel_ &&
level < maxLevel_ + 1) ++level;`.  Each evaluation of the condition consumes
one coin (the outcome of `dist_(rng_) < probability_`); `&&` short-circuits,
so when the draw fails the level tests are not evaluated, but the coin is
consumed either way. -/
def SkipList.randomLevelAux (maxLevel maxAllowed : Nat) :
    List Bool → Nat → Nat × List Bool
  | [], level => (level, [])
  | c :: rest, level =>
    if c = true ∧ level < maxAllowed ∧ level < maxLevel + 1 then
      SkipList.randomLevelAux maxLevel maxAllowed rest (level + 1)
    else (level, rest)

/-- `SkipList::randomLevel` (lines 253-259): starts at `level = 1` and runs the
promotion loop; returns the level together with the remaining coins. -/
def SkipList.randomLevel (coins : List Bool) (maxLevel maxAllowed : Nat) :
    Nat × List Bool :=
  SkipList.randomLevelAux maxLevel maxAllowed coins 1

/-- The inner walk of the search code (`while (cur->next[i] &&
cur->next[i]->key < key) cur = cur->next[i];`, lines 267-269, 303-305 and
333-335), with fuel. -/
def SkipList.advance (st : SkipList α) (k : α) (i : Nat) :
    Nat → Nat → Nat
  | 0, cur => cur
  | fuel + 1, cur =>
    match st.nextPtr cur i with
    | none => cur
    | some m => if st.keyAt m < k then st.advance k i fuel m else cur

/-- The top-down descent of `insert`/`erase` (lines 266-271 and 302-307):
`for (int i = maxLevel_ - 1; i >= 0; --i) { walk; update[i] = cur; }`.
The second argument counts the levels still to process; the result is the final
`cur` together with the `update` vector (entry `i` is the node recorded at
level `i`). -/
def SkipList.searchLevels (st : SkipList α) (k : α) :
    Nat → Nat → Nat × List Nat
  | cur, 0 => (cur, [])
  | cur, j + 1 =>
    let c := st.advance k j (st.nodes.length + 1) cur
    let r := st.searchLevels k c j
    (r.1, r.2 ++ [c])

/-- The descent of `contains` (lines 331-336), which records no `update`
vector. -/
def SkipList.containsDescend (st : SkipList α) (k : α) :
    Nat → Nat → Nat
  | cur, 0 => cur
  | cur, j + 1 =>
    st.containsDescend k (st.advance k j (st.nodes.length + 1) cur) j

/-- `SkipList::contains` (lines 330-339): descend, step once at level 0, and
compare the candidate key (`cur && cur->key == key`). -/
def SkipList.contains (st : SkipList α) (k : α) : Bool :=
  let cur := st.containsDescend k st.head st.maxLevel
  match st.nextPtr cur 0 with
  | some m => decide (st.keyAt m = k)
  | none => false

/-- The splice loop of `insert` (lines 291-294): for each pair `(i, update[i])`
in order, `newNode->next[i] = update[i]->next[i];
update[i]->next[i] = newNode;`. -/
def SkipList.spliceLoop (newId : Nat) :
    SkipList α → List (Nat × Nat) → SkipList α
  | st, [] => st
  | st, (i, u) :: rest =>
    let st1 := st.setNextPtr newId i (st.nextPtr u i)
    let st2 := st1.setNextPtr u i (some newId)
    SkipList.spliceLoop newId st2 rest

/-- The non-duplicate tail of `insert` (lines 278-294): draw `newLevel`; if it
exceeds the height, resize the sentinel's `next` with `nullptr` padding, extend
`update` so the new entries are the sentinel, and raise `maxLevel_`; allocate
the node with `newLevel` null pointers; splice at levels `0 .. newLevel - 1`.
(`update.resize(newLevel, nullptr)` followed by the loop that assigns `head_`
to positions `maxLevel_ .. newLevel - 1` nets to appending `head` entries.) -/
def SkipList.insertNew (st : SkipList α) (k : α) (update : List Nat) :
    SkipList α :=
  let rl := SkipList.randomLevel st.coins st.maxLevel st.maxAllowedLevel
  let newLevel := rl.1
  let st1 : SkipList α := { st with coins := rl.2 }
  let grow := st1.maxLevel < newLevel
  let st2 : SkipList α :=
    if grow then
      { st1 with
        nodes := SkipList.setNodeNext st1.nodes st1.head
          (SkipList.resizeFill (st1.nextList st1.head) newLevel none),
        maxLevel := newLevel }
    else st1
  let update2 :=
    if grow then update ++ List.replicate (newLevel - st1.maxLevel) st1.head
    else update
  let newId := st2.nodes.length
  let st3 : SkipList α := { st2 with
    nodes := st2.nodes ++ [⟨k, List.replicate newLevel none⟩] }
  SkipList.spliceLoop newId st3 ((update2.take newLevel).enum)

/-- `SkipList::insert` (lines 262-295): search, take the level-0 successor as
candidate, return unchanged on a duplicate (`cur && cur->key == key`),
otherwise run the insertion tail. -/
def SkipList.insert (st : SkipList α) (k : α) : SkipList α :=
  let sr := st.searchLevels k st.head st.maxLevel
  match st.nextPtr sr.1 0 with
  | some m => if st.keyAt m = k then st else st.insertNew k sr.2
  | none => st.insertNew k sr.2

/-- The unlink loop of `erase` (lines 314-318): for each `(i, update[i])`,
`if (update[i]->next[i] == cur) update[i]->next[i] = cur->next[i];`. -/
def SkipList.unlinkLoop (c : Nat) :
    SkipList α → List (Nat × Nat) → SkipList α
  | st, [] => st
  | st, (i, u) :: rest =>
    let st1 :=
      if st.nextPtr u i = some c then st.setNextPtr u i (st.nextPtr c i)
      else st
    SkipList.unlinkLoop c st1 rest

/-- The height-shrink loop of `erase` (lines 321-324), acting on the pair
(`maxLevel_`, `head_->next`): `while (maxLevel_ > 1 &&
head_->next[maxLevel_ - 1] == nullptr) { --maxLevel_;
head_->next.pop_back(); }`. -/
def SkipList.shrinkAux : Nat → List (Option Nat) → Nat × List (Option Nat)
  | 0, hn => (0, hn)
  | 1, hn => (1, hn)
  | m + 2, hn =>
    if hn.getD (m + 1) none = none then SkipList.shrinkAux (m + 1) hn.dropLast
    else (m + 2, hn)

/-- Write the shrunk (`maxLevel_`, `head_->next`) pair back into the state. -/
def SkipList.shrink (st : SkipList α) : SkipList α :=
  let r := SkipList.shrinkAux st.maxLevel (st.nextList st.head)
  { st with maxLevel := r.1,
            nodes := SkipList.setNodeNext st.nodes st.head r.2 }

/-- `SkipList::erase` (lines 298-327): search, check the candidate
(`!cur || cur->key != key` returns `false`), unlink it from every level where
the recorded predecessor points at it, `delete` it (the arena slot becomes
unreachable garbage), then shrink the height. -/
def SkipList.erase (st : SkipList α) (k : α) : Bool × SkipList α :=
  let sr := st.searchLevels k st.head st.maxLevel
  match st.nextPtr sr.1 0 with
  | none => (false, st)
  | some m =>
    if st.keyAt m = k then
      (true, SkipList.shrink (SkipList.unlinkLoop m st sr.2.enum))
    else (false, st)

/-- The walk `while (node) { visit; node = node->next[i]; }` used by iteration
(level 0) and by `printByLevels` (every level), collecting node indices, with
fuel. -/
def SkipList.levelIdsFrom (st : SkipList α) (i : Nat) :
    Nat → Option Nat → List Nat
  | 0, _ => []
  | _ + 1, none => []
  | fuel + 1, some n => n :: st.levelIdsFrom i fuel (st.nextPtr n i)

/-- The node indices reachable from the sentinel at level `i`, in chain
order. -/
def SkipList.levelIds (st : SkipList α) (i : Nat) : List Nat :=
  st.levelIdsFrom i (st.nodes.length + 1) (st.nextPtr st.head i)

/-- The ascending key sequence observed by the iterator (`begin()` starts at
`head_->next[0]`, `operator++` follows `next[0]`, lines 52-56 and 149-154). -/
def SkipList.toList (st : SkipList α) : List α :=
  (st.levelIds 0).map st.keyAt

/-- The per-level lines of `SkipList::printByLevels` (lines 348-356): for each
`i` from `maxLevel_ - 1` down to `0`, the line `"Level " << i << ": "` followed
by each reachable key and a space (`os << node->key << ' ';`).  The function
also first prints the header line `"SkipList (levels = ..., p = ...)"`
(line 347), whose text renders the floating-point `probability_` and is left
outside the model; it mutates nothing. -/
def SkipList.printByLevels [ToString α] (st : SkipList α) : List String :=
  (List.range st.maxLevel).reverse.map (fun i =>
    "Level " ++ toString i ++ ": " ++
      String.join ((st.levelIds i).map (fun n => toString (st.keyAt n) ++ " ")))

/-- The constructor (lines 186-195): height 1 and a fresh sentinel
`new Node(Key(), 1)` whose single forward pointer is `nullptr`; seeding the
generator corresponds to choosing the coin stream. -/
def SkipList.init (maxAllowedLevel : Nat) (coins : List Bool) : SkipList α :=
  { nodes := [⟨default, [none]⟩], head := 0, maxLevel := 1,
    maxAllowedLevel := maxAllowedLevel, coins := coins }

/-- The move constructor (lines 210-222): the destination takes the whole node
graph, height, cap and randomness state; the source's head is exchanged to
`nullptr` and its height to 1, and `resetToEmpty` (lines 361-365) immediately
rebuilds a fresh one-level sentinel, so the source ends up exactly as a freshly
constructed list with the original cap (`maxAllowedLevel_` and `probability_`
are read, not cleared; the moved-from `mt19937` keeps a valid state). -/
def SkipList.moveCtor (other : SkipList α) : SkipList α × SkipList α :=
  (other, SkipList.init other.maxAllowedLevel other.coins)

/-- The move assignment (lines 225-250).  `sameObj` reflects the
pointer-identity guard `this != &other`: when the two references alias, the
body is skipped and both (that is, the one object) stay unchanged.  Otherwise
the old nodes of the destination are freed, every field is transferred, and the
source is reset to a fresh empty list exactly as in the move constructor. -/
def SkipList.moveAssign (sameObj : Bool) (self other : SkipList α) :
    SkipList α × SkipList α :=
  if sameObj then (self, other)
  else (other, SkipList.init other.maxAllowedLevel other.coins)

/-- One public mutating call, for reasoning about call sequences. -/
inductive SkipList.Op (α : Type) where
  | ins (k : α)
  | del (k : α)
deriving Repr, DecidableEq

/-- Apply one mutating call. -/
def SkipList.applyOp (st : SkipList α) : SkipList.Op α → SkipList α
  | SkipList.Op.ins k => st.insert k
  | SkipList.Op.del k => (st.erase k).2

/-- Run a sequence of mutating calls. -/
def SkipList.run (st : SkipList α) (ops : List (SkipList.Op α)) : SkipList α :=
  ops.foldl SkipList.applyOp st

/-- Whether, after the call sequence `ops`, the key `k` has been inserted and
not subsequently erased. -/
def SkipList.present (k : α) (ops : List (SkipList.Op α)) : Bool :=
  ops.foldl (fun b op =>
    match op with
    | SkipList.Op.ins j => if j = k then true else b
    | SkipList.Op.del j => if j = k then false else b) false

/-- Following the level-`i` pointers from node `n` visits exactly the nodes of
`M` and then hits `nullptr`. -/
def SkipList.IsChain (st : SkipList α) (i : Nat) : Nat → List Nat → Prop
  | n, [] => st.nextPtr n i = none
  | n, m :: M => st.nextPtr n i = some m ∧ SkipList.IsChain st i m M

/-- Of the live nodes `L` (in level-0 order), those that participate in level
`i`, i.e. whose span exceeds `i`. -/
def SkipList.chainIds (st : SkipList α) (L : List Nat) (i : Nat) : List Nat :=
  L.filter (fun n => decide (i < st.levelOf n))

/-- Representation invariant: `L` lists the indices of the live key-bearing
nodes in level-0 order; keys are strictly increasing along it; every node spans
between 1 and `maxLevel` levels; the sentinel spans exactly `maxLevel`; and at
each level `i` the pointer chain from the sentinel passes exactly through the
nodes of `L` whose span exceeds `i`, in order. -/
structure SkipList.Represents (st : SkipList α) (L : List Nat) : Prop where
  head_lt : st.head < st.nodes.length
  head_len : st.levelOf st.head = st.maxLevel
  one_le : 1 ≤ st.maxLevel
  mem_lt : ∀ n ∈ L, n < st.nodes.length
  ne_head : ∀ n ∈ L, n ≠ st.head
  nodup : L.Nodup
  sorted : (L.map st.keyAt).Pairwise (· < ·)
  level_pos : ∀ n ∈ L, 1 ≤ st.levelOf n
  level_le : ∀ n ∈ L, st.levelOf n ≤ st.maxLevel
  chains : ∀ i < st.maxLevel, SkipList.IsChain st i st.head (st.chainIds L i)

/-- The live nodes with key below `k` (a prefix of `L` when sorted). -/
def SkipList.lowIds (st : SkipList α) (L : List Nat) (k : α) : List Nat :=
  L.takeWhile (fun n => decide (st.keyAt n < k))

/-- The live nodes from the first key not below `k` on (a suffix of `L`). -/
def SkipList.highIds (st : SkipList α) (L : List Nat) (k : α) : List Nat :=
  L.dropWhile (fun n => decide (st.keyAt n < k))

/-- Among the below-`k` nodes, those participating in level `i`. -/
def SkipList.belowAt (st : SkipList α) (L : List Nat) (k : α) (i : Nat) :
    List Nat :=
  (st.lowIds L k).filter (fun n => decide (i < st.levelOf n))

/-- Among the not-below-`k` nodes, those participating in level `i`. -/
def SkipList.aboveAt (st : SkipList α) (L : List Nat) (k : α) (i : Nat) :
    List Nat :=
  (st.highIds L k).filter (fun n => decide (i < st.levelOf n))

/-- The predecessor of `k` at level `i`: the last level-`i` node with key below
`k`, the sentinel if there is none.  The search descent stops here at level
`i`. -/
def SkipList.predAt (st : SkipList α) (L : List Nat) (k : α) (i : Nat) : Nat :=
  (st.belowAt L k i).getLastD st.head

namespace SkipList

set_option linter.unusedSectionVars false

/-! ### Basic facts about state access and pointer assignment -/

theorem length_setNodeNext (nodes : List (Node α)) (n : Nat)
    (l : List (Option Nat)) : (setNodeNext nodes n l).length = nodes.length := by
  unfold setNodeNext
  cases nodes[n]? <;> simp

theorem getElem?_setNodeNext_ne (nodes : List (Node α)) (n m : Nat)
    (l : List (Option Nat)) (h : m ≠ n) :
    (setNodeNext nodes n l)[m]? = nodes[m]? := by
  have h2 : n ≠ m := Ne.symm h
  unfold setNodeNext
  cases nodes[n]? <;> simp [List.getElem?_set, h2]

theorem getElem?_setNodeNext_self (nodes : List (Node α)) (n : Nat)
    (l : List (Option Nat)) (nd : Node α) (h : nodes[n]? = some nd) :
    (setNodeNext nodes n l)[n]? = some ⟨nd.key, l⟩ := by
  unfold setNodeNext
  rw [h]
  simp [List.getElem?_set, (List.getElem?_eq_some.mp h).1]

theorem nodes_setNextPtr (st : SkipList α) (n i : Nat) (v : Option Nat) :
    (st.setNextPtr n i v).nodes = setNodeNext st.nodes n ((st.nextList n).set i v) :=
  rfl

theorem head_setNextPtr (st : SkipList α) (n i : Nat) (v : Option Nat) :
    (st.setNextPtr n i v).head = st.head := rfl

theorem maxLevel_setNextPtr (st : SkipList α) (n i : Nat) (v : Option Nat) :
    (st.setNextPtr n i v).maxLevel = st.maxLevel := rfl

theorem length_nodes_setNextPtr (st : SkipList α) (n i : Nat) (v : Option Nat) :
    (st.setNextPtr n i v).nodes.length = st.nodes.length :=
  length_setNodeNext ..

theorem nextList_setNextPtr_ne (st : SkipList α) (n i : Nat) (v : Option Nat)
    (m : Nat) (h : m ≠ n) :
    (st.setNextPtr n i v).nextList m = st.nextList m := by
  unfold nextList
  rw [nodes_setNextPtr, getElem?_setNodeNext_ne _ _ _ _ h]

theorem nextList_setNextPtr_self (st : SkipList α) (n i : Nat) (v : Option Nat)
    (h : n < st.nodes.length) :
    (st.setNextPtr n i v).nextList n = (st.nextList n).set i v := by
  have hnd : st.nodes[n]? = some st.nodes[n] := List.getElem?_eq_getElem h
  unfold nextList
  rw [nodes_setNextPtr, getElem?_setNodeNext_self _ _ _ _ hnd, hnd]
  simp [nextList, hnd]

theorem keyAt_setNextPtr (st : SkipList α) (n i : Nat) (v : Option Nat)
    (m : Nat) : (st.setNextPtr n i v).keyAt m = st.keyAt m := by
  unfold keyAt
  rw [nodes_setNextPtr]
  by_cases hm : m = n
  · subst hm
    unfold setNodeNext
    cases h : st.nodes[m]? with
    | none => simp [h]
    | some nd =>
      have hl : m < st.nodes.length := (List.getElem?_eq_some.mp h).1
      simp [List.getElem?_set, hl, h]
  · rw [getElem?_setNodeNext_ne _ _ _ _ hm]

theorem levelOf_setNextPtr (st : SkipList α) (n i : Nat) (v : Option Nat)
    (m : Nat) : (st.setNextPtr n i v).levelOf m = st.levelOf m := by
  unfold levelOf
  by_cases hm : m = n
  · subst hm
    by_cases h : m < st.nodes.length
    · rw [nextList_setNextPtr_self _ _ _ _ h, List.length_set]
    · have : st.nodes[m]? = none := by
        simp [List.getElem?_eq_none_iff]
        omega
      unfold nextList
      rw [nodes_setNextPtr]
      unfold setNodeNext
      rw [this]
      simp [this]
  · rw [nextList_setNextPtr_ne _ _ _ _ _ hm]

theorem nextPtr_setNextPtr_ne (st : SkipList α) (n i : Nat) (v : Option Nat)
    (m j : Nat) (h : m ≠ n ∨ j ≠ i) :
    (st.setNextPtr n i v).nextPtr m j = st.nextPtr m j := by
  by_cases hm : m = n
  · subst hm
    have hj : i ≠ j := fun h2 => (h.resolve_left (by simp)) h2.symm
    by_cases hlt : m < st.nodes.length
    · unfold nextPtr
      rw [nextList_setNextPtr_self _ _ _ _ hlt,
        List.getD_eq_getElem?_getD, List.getD_eq_getElem?_getD,
        List.getElem?_set]
      simp [hj]
    · have hnone : st.nodes[m]? = none := by
        rw [List.getElem?_eq_none_iff]
        omega
      unfold nextPtr nextList
      rw [nodes_setNextPtr]
      unfold setNodeNext
      simp [hnone]
  · unfold nextPtr
    rw [nextList_setNextPtr_ne _ _ _ _ _ hm]

theorem nextPtr_setNextPtr_self (st : SkipList α) (n i : Nat) (v : Option Nat)
    (h : i < st.levelOf n) :
    (st.setNextPtr n i v).nextPtr n i = v := by
  have hn : n < st.nodes.length := by
    by_contra hc
    have : st.nodes[n]? = none := by
      simp [List.getElem?_eq_none_iff]
      omega
    unfold levelOf nextList at h
    rw [this] at h
    simp at h
  unfold nextPtr
  rw [nextList_setNextPtr_self _ _ _ _ hn, List.getD_eq_getElem?_getD,
    List.getElem?_set]
  have : i < (st.nextList n).length := h
  simp [this]

/-! ### Chains -/

theorem isChain_congr {st st' : SkipList α} {i h0 : Nat} {M : List Nat}
    (hc : IsChain st i h0 M)
    (he : ∀ n, n = h0 ∨ n ∈ M → st'.nextPtr n i = st.nextPtr n i) :
    IsChain st' i h0 M := by
  induction M generalizing h0 with
  | nil =>
    unfold IsChain at hc ⊢
    rw [he h0 (Or.inl rfl)]
    exact hc
  | cons m M ih =>
    unfold IsChain at hc ⊢
    refine ⟨?_, ih hc.2 ?_⟩
    · rw [he h0 (Or.inl rfl)]
      exact hc.1
    · intro n hn
      exact he n (Or.inr (by
        rcases hn with h1 | h1
        · simp [h1]
        · simp [h1]))

theorem isChain_append {st : SkipList α} {i h0 : Nat} {A B : List Nat}
    (hc : IsChain st i h0 (A ++ B)) :
    IsChain st i (A.getLastD h0) B := by
  induction A generalizing h0 with
  | nil => simpa using hc
  | cons a A ih =>
    rw [List.cons_append] at hc
    unfold IsChain at hc
    rw [List.getLastD_cons]
    exact ih hc.2

theorem getLastD_cons_mem (a : Nat) (A : List Nat) :
    A.getLastD a ∈ a :: A := by
  induction A generalizing a with
  | nil => simp [List.getLastD]
  | cons b A ih =>
    rw [List.getLastD_cons]
    rcases List.mem_cons.mp (ih b) with h | h
    · rw [h]
      exact List.mem_cons_of_mem _ (List.mem_cons_self _ _)
    · exact List.mem_cons_of_mem _ (List.mem_cons_of_mem _ h)

/-! ### The splice loop of insert -/

theorem spliceLoop_fields (nid : Nat) (st : SkipList α) (ps : List (Nat × Nat)) :
    (spliceLoop nid st ps).head = st.head ∧
    (spliceLoop nid st ps).maxLevel = st.maxLevel ∧
    (spliceLoop nid st ps).maxAllowedLevel = st.maxAllowedLevel ∧
    (spliceLoop nid st ps).coins = st.coins ∧
    (spliceLoop nid st ps).nodes.length = st.nodes.length ∧
    (∀ m, (spliceLoop nid st ps).keyAt m = st.keyAt m) ∧
    (∀ m, (spliceLoop nid st ps).levelOf m = st.levelOf m) := by
  induction ps generalizing st with
  | nil => exact ⟨rfl, rfl, rfl, rfl, rfl, fun _ => rfl, fun _ => rfl⟩
  | cons p rest ih =>
    obtain ⟨i, u⟩ := p
    unfold spliceLoop
    obtain ⟨h1, h2, h3, h4, h5, h6, h7⟩ :=
      ih ((st.setNextPtr nid i (st.nextPtr u i)).setNextPtr u i (some nid))
    refine ⟨h1.trans rfl, h2.trans rfl, h3.trans rfl, h4.trans rfl,
      h5.trans ?_, fun m => (h6 m).trans ?_, fun m => (h7 m).trans ?_⟩
    · rw [length_nodes_setNextPtr, length_nodes_setNextPtr]
    · rw [keyAt_setNextPtr, keyAt_setNextPtr]
    · rw [levelOf_setNextPtr, levelOf_setNextPtr]

theorem nextPtr_spliceLoop_frame (nid : Nat) (st : SkipList α)
    (ps : List (Nat × Nat)) (m j : Nat)
    (hf : ∀ p ∈ ps, j ≠ p.1 ∨ (m ≠ p.2 ∧ m ≠ nid)) :
    (spliceLoop nid st ps).nextPtr m j = st.nextPtr m j := by
  induction ps generalizing st with
  | nil => rfl
  | cons p rest ih =>
    obtain ⟨i, u⟩ := p
    unfold spliceLoop
    rw [ih _ (fun q hq => hf q (List.mem_cons_of_mem _ hq))]
    have hh := hf (i, u) (List.mem_cons_self _ _)
    rw [nextPtr_setNextPtr_ne, nextPtr_setNextPtr_ne]
    · rcases hh with h | h
      · exact Or.inr h
      · exact Or.inl h.2
    · rcases hh with h | h
      · exact Or.inr h
      · exact Or.inl h.1

theorem nextPtr_spliceLoop_self (nid : Nat) (st : SkipList α)
    (ps : List (Nat × Nat)) (i u : Nat)
    (hmem : (i, u) ∈ ps)
    (hnodup : (ps.map Prod.fst).Nodup)
    (hne : ∀ p ∈ ps, p.2 ≠ nid)
    (hlevel : i < st.levelOf u) :
    (spliceLoop nid st ps).nextPtr u i = some nid := by
  induction ps generalizing st with
  | nil => cases hmem
  | cons p rest ih =>
    obtain ⟨i0, u0⟩ := p
    rw [List.map_cons, List.nodup_cons] at hnodup
    rcases List.mem_cons.mp hmem with h | h
    · obtain ⟨hi, hu⟩ := Prod.mk.injEq .. ▸ h
      subst hi
      subst hu
      unfold spliceLoop
      rw [nextPtr_spliceLoop_frame]
      · rw [nextPtr_setNextPtr_self]
        rw [levelOf_setNextPtr]
        exact hlevel
      · intro q hq
        left
        intro hiq
        have hmm : q.1 ∈ List.map Prod.fst rest := List.mem_map_of_mem Prod.fst hq
        exact hnodup.1 (hiq.symm ▸ hmm)
    · have hi0 : i ≠ i0 := by
        intro he
        have hmm := List.mem_map_of_mem Prod.fst h
        rw [he] at hmm
        exact hnodup.1 hmm
      unfold spliceLoop
      refine ih _ h hnodup.2 (fun q hq => hne q (List.mem_cons_of_mem _ hq)) ?_
      rw [levelOf_setNextPtr, levelOf_setNextPtr]
      exact hlevel

theorem nextPtr_spliceLoop_new (nid : Nat) (st : SkipList α)
    (ps : List (Nat × Nat)) (i u : Nat)
    (hmem : (i, u) ∈ ps)
    (hnodup : (ps.map Prod.fst).Nodup)
    (hne : ∀ p ∈ ps, p.2 ≠ nid)
    (hlevelnid : i < st.levelOf nid) :
    (spliceLoop nid st ps).nextPtr nid i = st.nextPtr u i := by
  induction ps generalizing st with
  | nil => cases hmem
  | cons p rest ih =>
    obtain ⟨i0, u0⟩ := p
    rw [List.map_cons, List.nodup_cons] at hnodup
    have hu0 : u0 ≠ nid := hne (i0, u0) (List.mem_cons_self _ _)
    rcases List.mem_cons.mp hmem with h | h
    · obtain ⟨hi, hu⟩ := Prod.mk.injEq .. ▸ h
      subst hi
      subst hu
      unfold spliceLoop
      rw [nextPtr_spliceLoop_frame]
      · rw [nextPtr_setNextPtr_ne _ _ _ _ _ _ (Or.inl (Ne.symm hu0)),
          nextPtr_setNextPtr_self _ _ _ _ hlevelnid]
      · intro q hq
        left
        intro hiq
        have hmm : q.1 ∈ List.map Prod.fst rest := List.mem_map_of_mem Prod.fst hq
        exact hnodup.1 (hiq.symm ▸ hmm)
    · have hi0 : i ≠ i0 := by
        intro he
        have hmm := List.mem_map_of_mem Prod.fst h
        rw [he] at hmm
        exact hnodup.1 hmm
      unfold spliceLoop
      rw [ih _ h hnodup.2 (fun q hq => hne q (List.mem_cons_of_mem _ hq))
        (by rw [levelOf_setNextPtr, levelOf_setNextPtr]; exact hlevelnid)]
      rw [nextPtr_setNextPtr_ne _ _ _ _ _ _ (Or.inr hi0),
        nextPtr_setNextPtr_ne _ _ _ _ _ _ (Or.inr hi0)]

/-! ### The unlink loop of erase -/

theorem unlinkLoop_fields (c : Nat) (st : SkipList α) (ps : List (Nat × Nat)) :
    (unlinkLoop c st ps).head = st.head ∧
    (unlinkLoop c st ps).maxLevel = st.maxLevel ∧
    (unlinkLoop c st ps).maxAllowedLevel = st.maxAllowedLevel ∧
    (unlinkLoop c st ps).coins = st.coins ∧
    (unlinkLoop c st ps).nodes.length = st.nodes.length ∧
    (∀ m, (unlinkLoop c st ps).keyAt m = st.keyAt m) ∧
    (∀ m, (unlinkLoop c st ps).levelOf m = st.levelOf m) := by
  induction ps generalizing st with
  | nil => exact ⟨rfl, rfl, rfl, rfl, rfl, fun _ => rfl, fun _ => rfl⟩
  | cons p rest ih =>
    obtain ⟨i, u⟩ := p
    unfold unlinkLoop
    set st1 := if st.nextPtr u i = some c then st.setNextPtr u i (st.nextPtr c i)
      else st with hst1
    obtain ⟨h1, h2, h3, h4, h5, h6, h7⟩ := ih st1
    have hfields : st1.head = st.head ∧ st1.maxLevel = st.maxLevel ∧
        st1.maxAllowedLevel = st.maxAllowedLevel ∧ st1.coins = st.coins ∧
        st1.nodes.length = st.nodes.length ∧
        (∀ m, st1.keyAt m = st.keyAt m) ∧
        (∀ m, st1.levelOf m = st.levelOf m) := by
      rw [hst1]
      split
      · exact ⟨rfl, rfl, rfl, rfl, length_nodes_setNextPtr ..,
          fun m => keyAt_setNextPtr _ _ _ _ m,
          fun m => levelOf_setNextPtr _ _ _ _ m⟩
      · exact ⟨rfl, rfl, rfl, rfl, rfl, fun _ => rfl, fun _ => rfl⟩
    exact ⟨h1.trans hfields.1, h2.trans hfields.2.1, h3.trans hfields.2.2.1,
      h4.trans hfields.2.2.2.1, h5.trans hfields.2.2.2.2.1,
      fun m => (h6 m).trans (hfields.2.2.2.2.2.1 m),
      fun m => (h7 m).trans (hfields.2.2.2.2.2.2 m)⟩

theorem nextPtr_unlinkLoop_frame (c : Nat) (st : SkipList α)
    (ps : List (Nat × Nat)) (m j : Nat)
    (hf : ∀ p ∈ ps, j ≠ p.1 ∨ m ≠ p.2) :
    (unlinkLoop c st ps).nextPtr m j = st.nextPtr m j := by
  induction ps generalizing st with
  | nil => rfl
  | cons p rest ih =>
    obtain ⟨i, u⟩ := p
    unfold unlinkLoop
    rw [ih _ (fun q hq => hf q (List.mem_cons_of_mem _ hq))]
    split
    · rw [nextPtr_setNextPtr_ne]
      rcases hf (i, u) (List.mem_cons_self _ _) with h | h
      · exact Or.inr h
      · exact Or.inl h
    · rfl

theorem nextPtr_unlinkLoop_self (c : Nat) (st : SkipList α)
    (ps : List (Nat × Nat)) (i u : Nat)
    (hmem : (i, u) ∈ ps)
    (hnodup : (ps.map Prod.fst).Nodup)
    (hne : ∀ p ∈ ps, p.2 ≠ c) :
    (unlinkLoop c st ps).nextPtr u i =
      if st.nextPtr u i = some c then st.nextPtr c i else st.nextPtr u i := by
  induction ps generalizing st with
  | nil => cases hmem
  | cons p rest ih =>
    obtain ⟨i0, u0⟩ := p
    rw [List.map_cons, List.nodup_cons] at hnodup
    have hu0c : u0 ≠ c := hne (i0, u0) (List.mem_cons_self _ _)
    rcases List.mem_cons.mp hmem with h | h
    · obtain ⟨hi, hu⟩ := Prod.mk.injEq .. ▸ h
      subst hi
      subst hu
      unfold unlinkLoop
      rw [nextPtr_unlinkLoop_frame]
      · split
        · rename_i hcond
          have hlt : i < st.levelOf u := by
            by_contra hge
            have : st.nextPtr u i = none := by
              unfold nextPtr
              rw [List.getD_eq_getElem?_getD]
              have : (st.nextList u).length ≤ i := Nat.le_of_not_lt hge
              rw [List.getElem?_eq_none this]
              rfl
            rw [this] at hcond
            cases hcond
          rw [nextPtr_setNextPtr_self _ _ _ _ hlt]
        · rfl
      · intro q hq
        left
        intro hiq
        have hmm : q.1 ∈ List.map Prod.fst rest := List.mem_map_of_mem Prod.fst hq
        exact hnodup.1 (hiq.symm ▸ hmm)
    · have hi0 : i ≠ i0 := by
        intro he
        have hmm := List.mem_map_of_mem Prod.fst h
        rw [he] at hmm
        exact hnodup.1 hmm
      unfold unlinkLoop
      set st1 := if st.nextPtr u0 i0 = some c then
        st.setNextPtr u0 i0 (st.nextPtr c i0) else st with hst1
      have e1 : st1.nextPtr u i = st.nextPtr u i := by
        rw [hst1]
        split
        · exact nextPtr_setNextPtr_ne _ _ _ _ _ _ (Or.inr hi0)
        · rfl
      have e2 : st1.nextPtr c i = st.nextPtr c i := by
        rw [hst1]
        split
        · exact nextPtr_setNextPtr_ne _ _ _ _ _ _ (Or.inl (Ne.symm hu0c))
        · rfl
      rw [ih st1 h hnodup.2 (fun q hq => hne q (List.mem_cons_of_mem _ hq)),
        e1, e2]

/-! ### Rewiring a single level -/

theorem isChain_insert_mid {st0 st' : SkipList α} {i nid u h0 : Nat}
    {A B : List Nat}
    (hch : IsChain st0 i h0 (A ++ B))
    (hu : u = A.getLastD h0)
    (hnd : (h0 :: (A ++ B)).Nodup)
    (hnid : nid ∉ h0 :: (A ++ B))
    (h1 : st'.nextPtr u i = some nid)
    (h2 : st'.nextPtr nid i = st0.nextPtr u i)
    (h3 : ∀ n, n ≠ u → n ≠ nid → st'.nextPtr n i = st0.nextPtr n i) :
    IsChain st' i h0 (A ++ nid :: B) := by
  induction A generalizing h0 with
  | nil =>
    simp only [List.getLastD] at hu
    subst hu
    simp only [List.nil_append] at hch hnd hnid ⊢
    refine ⟨h1, ?_⟩
    cases B with
    | nil =>
      unfold IsChain at hch ⊢
      rw [h2, hch]
    | cons b B2 =>
      unfold IsChain at hch ⊢
      refine ⟨h2.trans hch.1, isChain_congr hch.2 ?_⟩
      intro n hn
      have hnmem : n ∈ b :: B2 := by
        rcases hn with h | h
        · simp [h]
        · simp [h]
      refine h3 n ?_ ?_
      · intro he
        rw [List.nodup_cons] at hnd
        exact hnd.1 (he ▸ hnmem)
      · intro he
        exact hnid (List.mem_cons_of_mem _ (he ▸ hnmem))
  | cons a A2 ih =>
    rw [List.cons_append] at hch hnd hnid ⊢
    unfold IsChain at hch
    rw [List.getLastD_cons] at hu
    have humem : u ∈ a :: (A2 ++ B) := by
      rw [hu]
      rcases List.mem_cons.mp (getLastD_cons_mem a A2) with h | h
      · rw [h]
        exact List.mem_cons_self _ _
      · exact List.mem_cons_of_mem _ (List.mem_append_left _ h)
    unfold IsChain
    refine ⟨?_, ?_⟩
    · rw [h3 h0 ?_ ?_]
      · exact hch.1
      · intro he
        rw [List.nodup_cons] at hnd
        exact hnd.1 (he ▸ humem)
      · intro he
        exact hnid (he ▸ List.mem_cons_self _ _)
    · refine ih hch.2 hu ?_ ?_
      · exact (List.nodup_cons.mp hnd).2
      · intro hmem
        exact hnid (List.mem_cons_of_mem _ hmem)

theorem isChain_erase_mid {st0 st' : SkipList α} {i u c h0 : Nat}
    {A B : List Nat}
    (hch : IsChain st0 i h0 (A ++ c :: B))
    (hu : u = A.getLastD h0)
    (hnd : (h0 :: (A ++ c :: B)).Nodup)
    (h1 : st'.nextPtr u i = st0.nextPtr c i)
    (h3 : ∀ n, n ≠ u → st'.nextPtr n i = st0.nextPtr n i) :
    IsChain st' i h0 (A ++ B) := by
  induction A generalizing h0 with
  | nil =>
    simp only [List.getLastD] at hu
    subst hu
    simp only [List.nil_append] at hch hnd ⊢
    unfold IsChain at hch
    cases B with
    | nil =>
      unfold IsChain at hch ⊢
      rw [h1, hch.2]
    | cons b B2 =>
      unfold IsChain at hch ⊢
      refine ⟨h1.trans hch.2.1, isChain_congr hch.2.2 ?_⟩
      intro n hn
      have hnmem : n ∈ b :: B2 := by
        rcases hn with h | h
        · simp [h]
        · simp [h]
      refine h3 n ?_
      intro he
      rw [List.nodup_cons] at hnd
      exact hnd.1 (he ▸ List.mem_cons_of_mem _ hnmem)
  | cons a A2 ih =>
    rw [List.cons_append] at hch hnd ⊢
    unfold IsChain at hch
    rw [List.getLastD_cons] at hu
    have humem : u ∈ a :: (A2 ++ c :: B) := by
      rw [hu]
      rcases List.mem_cons.mp (getLastD_cons_mem a A2) with h | h
      · rw [h]
        exact List.mem_cons_self _ _
      · exact List.mem_cons_of_mem _ (List.mem_append_left _ h)
    unfold IsChain
    refine ⟨?_, ih hch.2 hu (List.nodup_cons.mp hnd).2⟩
    rw [h3 h0 ?_]
    · exact hch.1
    · intro he
      rw [List.nodup_cons] at hnd
      exact hnd.1 (he ▸ humem)

/-! ### The shrink loop of erase -/

theorem shrinkAux_le (ml : Nat) (hn : List (Option Nat)) :
    (shrinkAux ml hn).1 ≤ ml := by
  induction ml, hn using shrinkAux.induct with
  | case1 hn => rw [shrinkAux]
  | case2 hn => rw [shrinkAux]
  | case3 m hn hc ih =>
    rw [shrinkAux, if_pos hc]
    omega
  | case4 m hn hc => rw [shrinkAux, if_neg hc]

theorem shrinkAux_one_le (ml : Nat) (hn : List (Option Nat)) (h : 1 ≤ ml) :
    1 ≤ (shrinkAux ml hn).1 := by
  induction ml, hn using shrinkAux.induct with
  | case1 hn => omega
  | case2 hn => rw [shrinkAux]
  | case3 m hn hc ih =>
    rw [shrinkAux, if_pos hc]
    exact ih (by omega)
  | case4 m hn hc =>
    rw [shrinkAux, if_neg hc]
    omega

theorem shrinkAux_take (ml : Nat) (hn : List (Option Nat))
    (h : hn.length = ml) :
    (shrinkAux ml hn).2 = hn.take (shrinkAux ml hn).1 := by
  induction ml, hn using shrinkAux.induct with
  | case1 hn =>
    rw [shrinkAux]
    rw [List.eq_nil_of_length_eq_zero h]
    rfl
  | case2 hn =>
    rw [shrinkAux]
    show hn = hn.take 1
    exact (List.take_of_length_le (by omega)).symm
  | case3 m hn hc ih =>
    rw [shrinkAux, if_pos hc]
    have hlen : hn.dropLast.length = m + 1 := by
      rw [List.length_dropLast, h]
      omega
    rw [ih hlen]
    set s := (shrinkAux (m + 1) hn.dropLast).1 with hs
    have hle : s ≤ m + 1 := shrinkAux_le ..
    rw [List.dropLast_eq_take, List.take_take]
    congr 1
    rw [h]
    omega
  | case4 m hn hc =>
    rw [shrinkAux, if_neg hc]
    show hn = hn.take (m + 2)
    exact (List.take_of_length_le (by omega)).symm

theorem shrinkAux_popped (ml : Nat) (hn : List (Option Nat))
    (h : hn.length = ml) :
    ∀ j, (shrinkAux ml hn).1 ≤ j → j < ml → hn.getD j none = none := by
  induction ml, hn using shrinkAux.induct with
  | case1 hn =>
    intro j h1 h2
    omega
  | case2 hn =>
    rw [shrinkAux]
    intro j h1 h2
    omega
  | case3 m hn hc ih =>
    rw [shrinkAux, if_pos hc]
    intro j h1 h2
    by_cases hj : j = m + 1
    · rw [hj]
      exact hc
    · have hlen : hn.dropLast.length = m + 1 := by
        rw [List.length_dropLast, h]
        omega
      have hthis := ih hlen j h1 (by omega)
      rw [List.dropLast_eq_take] at hthis
      rw [List.getD_eq_getElem?_getD] at hthis ⊢
      rw [List.getElem?_take] at hthis
      rw [if_pos (by omega : j < hn.length - 1)] at hthis
      exact hthis
  | case4 m hn hc =>
    rw [shrinkAux, if_neg hc]
    intro j h1 h2
    omega

theorem shrinkAux_post (ml : Nat) (hn : List (Option Nat)) (h1 : 1 ≤ ml) :
    (shrinkAux ml hn).1 = 1 ∨
      (shrinkAux ml hn).2.getD ((shrinkAux ml hn).1 - 1) none ≠ none := by
  induction ml, hn using shrinkAux.induct with
  | case1 hn => omega
  | case2 hn =>
    rw [shrinkAux]
    exact Or.inl rfl
  | case3 m hn hc ih =>
    rw [shrinkAux, if_pos hc]
    exact ih (by omega)
  | case4 m hn hc =>
    rw [shrinkAux, if_neg hc]
    exact Or.inr hc

/-! ### General arena-update and allocation facts -/

theorem keyAt_of_setNodeNext (st st' : SkipList α) (n : Nat)
    (l : List (Option Nat)) (h : st'.nodes = setNodeNext st.nodes n l)
    (m : Nat) : st'.keyAt m = st.keyAt m := by
  unfold keyAt
  rw [h]
  by_cases hm : m = n
  · subst hm
    unfold setNodeNext
    cases h2 : st.nodes[m]? with
    | none => simp [h2]
    | some nd =>
      have hl : m < st.nodes.length := (List.getElem?_eq_some.mp h2).1
      simp [List.getElem?_set, hl, h2]
  · rw [getElem?_setNodeNext_ne _ _ _ _ hm]

theorem nextList_of_setNodeNext_ne (st st' : SkipList α) (n : Nat)
    (l : List (Option Nat)) (h : st'.nodes = setNodeNext st.nodes n l)
    (m : Nat) (hm : m ≠ n) : st'.nextList m = st.nextList m := by
  unfold nextList
  rw [h, getElem?_setNodeNext_ne _ _ _ _ hm]

theorem nextList_of_setNodeNext_self (st st' : SkipList α) (n : Nat)
    (l : List (Option Nat)) (h : st'.nodes = setNodeNext st.nodes n l)
    (hn : n < st.nodes.length) : st'.nextList n = l := by
  have hnd : st.nodes[n]? = some st.nodes[n] := List.getElem?_eq_getElem hn
  unfold nextList
  rw [h, getElem?_setNodeNext_self _ _ _ _ hnd]

theorem length_of_setNodeNext (st st' : SkipList α) (n : Nat)
    (l : List (Option Nat)) (h : st'.nodes = setNodeNext st.nodes n l) :
    st'.nodes.length = st.nodes.length := by
  rw [h, length_setNodeNext]

theorem keyAt_of_append_lt (st st' : SkipList α) (nd : Node α)
    (h : st'.nodes = st.nodes ++ [nd]) (m : Nat) (hm : m < st.nodes.length) :
    st'.keyAt m = st.keyAt m := by
  unfold keyAt
  rw [h, List.getElem?_append, if_pos hm]

theorem keyAt_of_append_new (st st' : SkipList α) (nd : Node α)
    (h : st'.nodes = st.nodes ++ [nd]) :
    st'.keyAt st.nodes.length = nd.key := by
  unfold keyAt
  rw [h]
  simp

theorem nextList_of_append_lt (st st' : SkipList α) (nd : Node α)
    (h : st'.nodes = st.nodes ++ [nd]) (m : Nat) (hm : m < st.nodes.length) :
    st'.nextList m = st.nextList m := by
  unfold nextList
  rw [h, List.getElem?_append, if_pos hm]

theorem nextList_of_append_new (st st' : SkipList α) (nd : Node α)
    (h : st'.nodes = st.nodes ++ [nd]) :
    st'.nextList st.nodes.length = nd.next := by
  unfold nextList
  rw [h]
  simp

/-! ### Miscellaneous list helpers -/

theorem getLastD_default_irrel (l : List Nat) (h : l ≠ []) (d e : Nat) :
    l.getLastD d = l.getLastD e := by
  cases l with
  | nil => cases h rfl
  | cons a l => rw [List.getLastD_cons, List.getLastD_cons]

theorem getLastD_concat_self (A : List Nat) (p d : Nat) :
    (A ++ [p]).getLastD d = p := by
  induction A generalizing d with
  | nil => rfl
  | cons a A ih =>
    rw [List.cons_append, List.getLastD_cons]
    exact ih a

theorem length_le_of_nodup_lt (L : List Nat) (N : Nat)
    (hlt : ∀ n ∈ L, n < N) (hnd : L.Nodup) : L.length ≤ N := by
  have h1 : L.toFinset.card = L.length := List.toFinset_card_of_nodup hnd
  have h2 : L.toFinset ⊆ Finset.range N := by
    intro x hx
    rw [Finset.mem_range]
    exact hlt x (List.mem_toFinset.mp hx)
  have := Finset.card_le_card h2
  rw [h1, Finset.card_range] at this
  exact this

theorem getLastD_filter_split (h0 : Nat) (A : List Nat) (q : Nat → Bool) :
    ∃ A1 A2 : List Nat, h0 :: A = A1 ++ (A.filter q).getLastD h0 :: A2 ∧
      A2.getLastD ((A.filter q).getLastD h0) = A.getLastD h0 := by
  induction A generalizing h0 with
  | nil => exact ⟨[], [], rfl, rfl⟩
  | cons a A ih =>
    cases hq : q a with
    | true =>
      rw [List.filter_cons_of_pos hq, List.getLastD_cons, List.getLastD_cons]
      obtain ⟨A1, A2, he, hl⟩ := ih a
      exact ⟨h0 :: A1, A2, by rw [List.cons_append, ← he], hl⟩
    | false =>
      rw [List.filter_cons_of_neg (by rw [hq]; exact Bool.false_ne_true),
        List.getLastD_cons]
      by_cases hfa : A.filter q = []
      · refine ⟨[], a :: A, ?_, ?_⟩
        · rw [hfa]
          rfl
        · rw [hfa]
          rw [List.getLastD_cons]
      · obtain ⟨A1, A2, he, hl⟩ := ih a
        have hirr : (A.filter q).getLastD h0 = (A.filter q).getLastD a :=
          getLastD_default_irrel _ hfa _ _
        refine ⟨h0 :: A1, A2, ?_, ?_⟩
        · rw [hirr, List.cons_append, ← he]
        · rw [hirr]
          exact hl

/-! ### The low/high decomposition of a sorted list of nodes -/

theorem lowIds_append_highIds (st : SkipList α) (L : List Nat) (k : α) :
    st.lowIds L k ++ st.highIds L k = L :=
  List.takeWhile_append_dropWhile ..

theorem lowIds_key_lt (st : SkipList α) (L : List Nat) (k : α) :
    ∀ n ∈ st.lowIds L k, st.keyAt n < k := by
  intro n hn
  have := List.mem_takeWhile_imp hn
  exact of_decide_eq_true this

theorem sorted_rel (st : SkipList α) {L : List Nat}
    (hs : (L.map st.keyAt).Pairwise (· < ·)) :
    L.Pairwise (fun a b => st.keyAt a < st.keyAt b) :=
  List.pairwise_map.mp hs

theorem highIds_key_not_lt (st : SkipList α) {L : List Nat} (k : α)
    (hs : (L.map st.keyAt).Pairwise (· < ·)) :
    ∀ n ∈ st.highIds L k, ¬ st.keyAt n < k := by
  have hp := sorted_rel st hs
  clear hs
  induction L with
  | nil =>
    intro n hn
    cases hn
  | cons a L ih =>
    rw [List.pairwise_cons] at hp
    unfold highIds
    cases hqa : decide (st.keyAt a < k) with
    | true =>
      have hrw : (a :: L).dropWhile (fun n => decide (st.keyAt n < k)) =
          L.dropWhile (fun n => decide (st.keyAt n < k)) := by
        rw [List.dropWhile_cons, hqa]
        simp
      rw [hrw]
      exact ih hp.2
    | false =>
      have hrw : (a :: L).dropWhile (fun n => decide (st.keyAt n < k)) =
          a :: L := by
        rw [List.dropWhile_cons, hqa]
        simp
      rw [hrw]
      intro n hn
      rcases List.mem_cons.mp hn with h | h
      · subst h
        exact of_decide_eq_false hqa
      · have h1 : ¬ st.keyAt a < k := of_decide_eq_false hqa
        have h2 : st.keyAt a < st.keyAt n := hp.1 n h
        intro h3
        exact h1 (h2.trans h3)

theorem chainIds_eq_below_above (st : SkipList α) (L : List Nat) (k : α)
    (i : Nat) :
    st.chainIds L i = st.belowAt L k i ++ st.aboveAt L k i := by
  unfold chainIds belowAt aboveAt
  rw [← List.filter_append, lowIds_append_highIds]

theorem belowAt_key_lt (st : SkipList α) (L : List Nat) (k : α) (i : Nat) :
    ∀ n ∈ st.belowAt L k i, st.keyAt n < k := by
  intro n hn
  exact lowIds_key_lt st L k n (List.mem_of_mem_filter hn)

theorem aboveAt_key_not_lt (st : SkipList α) {L : List Nat} (k : α) (i : Nat)
    (hs : (L.map st.keyAt).Pairwise (· < ·)) :
    ∀ n ∈ st.aboveAt L k i, ¬ st.keyAt n < k := by
  intro n hn
  exact highIds_key_not_lt st k hs n (List.mem_of_mem_filter hn)

theorem belowAt_succ (st : SkipList α) (L : List Nat) (k : α) (i : Nat) :
    st.belowAt L k (i + 1) =
      (st.belowAt L k i).filter (fun n => decide (i + 1 < st.levelOf n)) := by
  unfold belowAt
  rw [List.filter_filter]
  apply List.filter_congr
  intro n hn
  cases h : decide (i + 1 < st.levelOf n) with
  | true =>
    have h2 := of_decide_eq_true h
    have h3 : decide (i < st.levelOf n) = true := decide_eq_true (by omega)
    rw [h3]
    rfl
  | false => rfl

theorem lowIds_subset (st : SkipList α) (L : List Nat) (k : α) :
    ∀ n ∈ st.lowIds L k, n ∈ L := fun _ hn =>
  (List.takeWhile_prefix _).sublist.subset hn

theorem highIds_subset (st : SkipList α) (L : List Nat) (k : α) :
    ∀ n ∈ st.highIds L k, n ∈ L := fun _ hn =>
  (List.dropWhile_suffix _).sublist.subset hn

theorem belowAt_subset (st : SkipList α) (L : List Nat) (k : α) (i : Nat) :
    ∀ n ∈ st.belowAt L k i, n ∈ L := fun n hn =>
  lowIds_subset st L k n (List.mem_of_mem_filter hn)

theorem aboveAt_subset (st : SkipList α) (L : List Nat) (k : α) (i : Nat) :
    ∀ n ∈ st.aboveAt L k i, n ∈ L := fun n hn =>
  highIds_subset st L k n (List.mem_of_mem_filter hn)

/-! ### The inner search walk -/

theorem advance_spec (st : SkipList α) (k : α) (i : Nat) :
    ∀ (A : List Nat) (n fuel : Nat) (B : List Nat),
    A.length < fuel →
    IsChain st i n (A ++ B) →
    (∀ a ∈ A, st.keyAt a < k) →
    (∀ b ∈ B.head?, ¬ st.keyAt b < k) →
    st.advance k i fuel n = A.getLastD n := by
  intro A
  induction A with
  | nil =>
    intro n fuel B hfuel hch hA hB
    cases fuel with
    | zero => omega
    | succ f =>
      rw [List.nil_append] at hch
      cases B with
      | nil =>
        unfold IsChain at hch
        rw [advance, hch]
        rfl
      | cons b B2 =>
        unfold IsChain at hch
        rw [advance, hch.1]
        show (if st.keyAt b < k then st.advance k i f b else n) = [].getLastD n
        rw [if_neg (hB b rfl)]
        rfl
  | cons a A2 ih =>
    intro n fuel B hfuel hch hA hB
    cases fuel with
    | zero =>
      rw [List.length_cons] at hfuel
      omega
    | succ f =>
      rw [List.cons_append] at hch
      unfold IsChain at hch
      rw [advance, hch.1]
      show (if st.keyAt a < k then st.advance k i f a else n) =
        (a :: A2).getLastD n
      rw [if_pos (hA a (List.mem_cons_self a A2)), List.getLastD_cons]
      refine ih a f B ?_ hch.2 (fun x hx => hA x (List.mem_cons_of_mem _ hx)) hB
      rw [List.length_cons] at hfuel
      omega

theorem advance_from_pred {st : SkipList α} {L : List Nat}
    (hR : Represents st L) (k : α) (j : Nat) (hj : j < st.maxLevel) :
    st.advance k j (st.nodes.length + 1) (st.predAt L k (j + 1)) =
      st.predAt L k j := by
  have hch : IsChain st j st.head (st.chainIds L j) := hR.chains j hj
  rw [chainIds_eq_below_above st L k j] at hch
  obtain ⟨A1, A2, he, hl⟩ := getLastD_filter_split st.head (st.belowAt L k j)
    (fun n => decide (j + 1 < st.levelOf n))
  rw [← belowAt_succ] at he hl
  have hpdef : st.predAt L k (j + 1) = (st.belowAt L k (j + 1)).getLastD st.head :=
    rfl
  have hsub : IsChain st j (st.predAt L k (j + 1)) (A2 ++ st.aboveAt L k j) ∧
      (∀ a ∈ A2, a ∈ st.belowAt L k j) := by
    rw [hpdef]
    cases A1 with
    | nil =>
      rw [List.nil_append] at he
      obtain ⟨hp, hA2⟩ := List.cons.injEq .. ▸ he
      constructor
      · rw [← hp, ← hA2]
        exact hch
      · intro a ha
        rw [hA2]
        exact ha
    | cons h0 A1' =>
      rw [List.cons_append] at he
      obtain ⟨hp, hA2⟩ := List.cons.injEq .. ▸ he
      have hbel : st.belowAt L k j =
          (A1' ++ [(st.belowAt L k (j + 1)).getLastD st.head]) ++ A2 := by
        rw [hA2]
        simp
      constructor
      · have := hch
        rw [hbel, List.append_assoc] at this
        have h2 := isChain_append this
        rw [getLastD_concat_self] at h2
        exact h2
      · intro a ha
        rw [hbel]
        exact List.mem_append_right _ ha
  have hlen : A2.length ≤ (st.belowAt L k j).length := by
    have := congrArg List.length he
    rw [List.length_cons, List.length_append, List.length_cons] at this
    omega
  have hlenL : L.length ≤ st.nodes.length :=
    length_le_of_nodup_lt L st.nodes.length hR.mem_lt hR.nodup
  have hlenB : (st.belowAt L k j).length ≤ L.length := by
    have h1 : (st.belowAt L k j).length ≤ (st.lowIds L k).length :=
      List.length_filter_le ..
    have h2 : (st.lowIds L k).length ≤ L.length :=
      (List.takeWhile_prefix _).length_le
    omega
  have hadv := advance_spec st k j A2 (st.predAt L k (j + 1))
    (st.nodes.length + 1) (st.aboveAt L k j)
    (by omega)
    hsub.1
    (fun a ha => belowAt_key_lt st L k j a (hsub.2 a ha))
    (fun b hb => aboveAt_key_not_lt st k j hR.sorted b
      (List.mem_of_mem_head? hb))
  rw [hadv]
  rw [← hpdef] at hl
  exact hl

theorem belowAt_maxLevel_nil {st : SkipList α} {L : List Nat}
    (hR : Represents st L) (k : α) :
    st.belowAt L k st.maxLevel = [] := by
  unfold belowAt
  rw [List.filter_eq_nil]
  intro n hn
  have hmem : n ∈ L := lowIds_subset st L k n hn
  have := hR.level_le n hmem
  simp
  omega

theorem predAt_maxLevel {st : SkipList α} {L : List Nat}
    (hR : Represents st L) (k : α) :
    st.predAt L k st.maxLevel = st.head := by
  unfold predAt
  rw [belowAt_maxLevel_nil hR k]
  rfl

theorem searchLevels_pred {st : SkipList α} {L : List Nat}
    (hR : Represents st L) (k : α) :
    ∀ j, j ≤ st.maxLevel →
    st.searchLevels k (st.predAt L k j) j =
      (st.predAt L k 0, (List.range j).map (st.predAt L k)) := by
  intro j
  induction j with
  | zero =>
    intro _
    rw [searchLevels]
    rfl
  | succ j ih =>
    intro hj
    rw [searchLevels]
    have hadv := advance_from_pred hR k j (by omega)
    rw [hadv, ih (by omega)]
    rw [List.range_succ, List.map_append]
    rfl

theorem searchLevels_main {st : SkipList α} {L : List Nat}
    (hR : Represents st L) (k : α) :
    st.searchLevels k st.head st.maxLevel =
      (st.predAt L k 0, (List.range st.maxLevel).map (st.predAt L k)) := by
  have := searchLevels_pred hR k st.maxLevel (le_refl _)
  rw [predAt_maxLevel hR k] at this
  exact this

theorem isChain_pred_zero {st : SkipList α} {L : List Nat}
    (hR : Represents st L) (k : α) :
    IsChain st 0 (st.predAt L k 0) (st.aboveAt L k 0) := by
  have hch : IsChain st 0 st.head (st.chainIds L 0) :=
    hR.chains 0 hR.one_le
  rw [chainIds_eq_below_above st L k 0] at hch
  exact isChain_append hch

theorem nextPtr_pred_zero {st : SkipList α} {L : List Nat}
    (hR : Represents st L) (k : α) :
    st.nextPtr (st.predAt L k 0) 0 = (st.aboveAt L k 0).head? := by
  have := isChain_pred_zero hR k
  cases h : st.aboveAt L k 0 with
  | nil =>
    rw [h] at this
    unfold IsChain at this
    rw [this]
    rfl
  | cons c rest =>
    rw [h] at this
    unfold IsChain at this
    rw [this.1]
    rfl

theorem aboveAt_zero {st : SkipList α} {L : List Nat}
    (hR : Represents st L) (k : α) :
    st.aboveAt L k 0 = st.highIds L k := by
  unfold aboveAt
  rw [List.filter_eq_self]
  intro n hn
  have := hR.level_pos n (highIds_subset st L k n hn)
  simp
  omega

/-! ### contains -/

theorem containsDescend_eq_search (st : SkipList α) (k : α) :
    ∀ (j cur : Nat), st.containsDescend k cur j = (st.searchLevels k cur j).1 := by
  intro j
  induction j with
  | zero =>
    intro cur
    rfl
  | succ j ih =>
    intro cur
    rw [containsDescend, searchLevels]
    exact ih _

theorem mem_keys_iff {st : SkipList α} {L : List Nat} (hR : Represents st L)
    (k : α) :
    k ∈ L.map st.keyAt ↔
      ∃ c rest, st.highIds L k = c :: rest ∧ st.keyAt c = k := by
  constructor
  · intro hk
    obtain ⟨n, hnL, hkn⟩ := List.mem_map.mp hk
    have hsplit : n ∈ st.lowIds L k ++ st.highIds L k := by
      rw [lowIds_append_highIds st L k]
      exact hnL
    have hnHi : n ∈ st.highIds L k := by
      rcases List.mem_append.mp hsplit with h | h
      · exfalso
        have := lowIds_key_lt st L k n h
        rw [hkn] at this
        exact lt_irrefl k this
      · exact h
    cases hHi : st.highIds L k with
    | nil =>
      rw [hHi] at hnHi
      cases hnHi
    | cons c rest =>
      refine ⟨c, rest, rfl, ?_⟩
      rw [hHi] at hnHi
      rcases List.mem_cons.mp hnHi with h | h
      · rw [← h]
        exact hkn
      · exfalso
        have hpw : (c :: rest).Pairwise (fun a b => st.keyAt a < st.keyAt b) := by
          have hsl : List.Sublist (c :: rest) L := by
            rw [← hHi]
            exact (List.dropWhile_suffix _).sublist
          exact List.Pairwise.sublist hsl (sorted_rel st hR.sorted)
        have h1 : st.keyAt c < st.keyAt n := (List.pairwise_cons.mp hpw).1 n h
        have h2 : ¬ st.keyAt c < k :=
          highIds_key_not_lt st k hR.sorted c
            (by rw [hHi]; exact List.mem_cons_self _ _)
        rw [hkn] at h1
        exact h2 h1
  · rintro ⟨c, rest, hcr, hck⟩
    have hc : c ∈ L := highIds_subset st L k c
      (by rw [hcr]; exact List.mem_cons_self _ _)
    exact List.mem_map.mpr ⟨c, hc, hck⟩

theorem contains_spec {st : SkipList α} {L : List Nat} (hR : Represents st L)
    (k : α) :
    st.contains k = decide (k ∈ L.map st.keyAt) := by
  have hcur : st.containsDescend k st.head st.maxLevel = st.predAt L k 0 := by
    rw [containsDescend_eq_search, searchLevels_main hR k]
  unfold contains
  rw [hcur]
  show (match st.nextPtr (st.predAt L k 0) 0 with
    | some m => decide (st.keyAt m = k)
    | none => false) = decide (k ∈ L.map st.keyAt)
  rw [nextPtr_pred_zero hR k, aboveAt_zero hR k]
  cases h : st.highIds L k with
  | nil =>
    show false = decide (k ∈ L.map st.keyAt)
    have hnot : ¬ k ∈ L.map st.keyAt := by
      rw [mem_keys_iff hR k]
      rintro ⟨c, rest, hcr, -⟩
      rw [h] at hcr
      cases hcr
    simp [hnot]
  | cons c rest =>
    show decide (st.keyAt c = k) = decide (k ∈ L.map st.keyAt)
    by_cases hck : st.keyAt c = k
    · have hmem : k ∈ L.map st.keyAt := (mem_keys_iff hR k).mpr ⟨c, rest, h, hck⟩
      simp [hck, hmem]
    · have hnot : ¬ k ∈ L.map st.keyAt := by
        rw [mem_keys_iff hR k]
        rintro ⟨c2, rest2, hcr, hk2⟩
        rw [h] at hcr
        obtain ⟨e1, e2⟩ := List.cons.injEq .. ▸ hcr
        exact hck (e1 ▸ hk2)
      simp [hck, hnot]

/-! ### randomLevel bounds -/

theorem randomLevelAux_bounds (ml ma : Nat) :
    ∀ (coins : List Bool) (level : Nat),
      level ≤ (randomLevelAux ml ma coins level).1 ∧
      (randomLevelAux ml ma coins level).1 ≤ max level ma ∧
      (randomLevelAux ml ma coins level).1 ≤ max level (ml + 1) := by
  intro coins
  induction coins with
  | nil =>
    intro level
    rw [randomLevelAux]
    refine ⟨le_refl _, ?_, ?_⟩ <;> omega
  | cons c rest ih =>
    intro level
    rw [randomLevelAux]
    split
    · rename_i hcond
      obtain ⟨h1, h2, h3⟩ := ih (level + 1)
      refine ⟨by omega, by omega, by omega⟩
    · refine ⟨le_refl _, ?_, ?_⟩ <;> omega

theorem randomLevel_bounds (coins : List Bool) (ml ma : Nat) :
    1 ≤ (randomLevel coins ml ma).1 ∧
    (randomLevel coins ml ma).1 ≤ max 1 ma ∧
    (randomLevel coins ml ma).1 ≤ ml + 1 := by
  unfold randomLevel
  obtain ⟨h1, h2, h3⟩ := randomLevelAux_bounds ml ma coins 1
  refine ⟨h1, h2, ?_⟩
  omega

/-! ### predAt helpers -/

theorem belowAt_ge_nil {st : SkipList α} {L : List Nat}
    (hR : Represents st L) (k : α) (i : Nat) (hi : st.maxLevel ≤ i) :
    st.belowAt L k i = [] := by
  unfold belowAt
  rw [List.filter_eq_nil_iff]
  intro n hn
  have := hR.level_le n (lowIds_subset st L k n hn)
  simp
  omega

theorem aboveAt_ge_nil {st : SkipList α} {L : List Nat}
    (hR : Represents st L) (k : α) (i : Nat) (hi : st.maxLevel ≤ i) :
    st.aboveAt L k i = [] := by
  unfold aboveAt
  rw [List.filter_eq_nil_iff]
  intro n hn
  have := hR.level_le n (highIds_subset st L k n hn)
  simp
  omega

theorem predAt_ge {st : SkipList α} {L : List Nat}
    (hR : Represents st L) (k : α) (i : Nat) (hi : st.maxLevel ≤ i) :
    st.predAt L k i = st.head := by
  unfold predAt
  rw [belowAt_ge_nil hR k i hi]
  rfl

theorem predAt_lt {st : SkipList α} {L : List Nat}
    (hR : Represents st L) (k : α) (i : Nat) :
    st.predAt L k i < st.nodes.length := by
  unfold predAt
  rcases List.mem_cons.mp (getLastD_cons_mem st.head (st.belowAt L k i)) with h | h
  · rw [h]
    exact hR.head_lt
  · exact hR.mem_lt _ (belowAt_subset st L k i _ h)

theorem predAt_head_or_below (st : SkipList α) (L : List Nat) (k : α)
    (i : Nat) :
    st.predAt L k i = st.head ∨ st.predAt L k i ∈ st.belowAt L k i := by
  unfold predAt
  rcases List.mem_cons.mp (getLastD_cons_mem st.head (st.belowAt L k i)) with h | h
  · exact Or.inl h
  · exact Or.inr h

theorem chainIds_nodup {st : SkipList α} {L : List Nat}
    (hR : Represents st L) (i : Nat) :
    (st.head :: st.chainIds L i).Nodup := by
  rw [List.nodup_cons]
  constructor
  · intro hmem
    exact hR.ne_head _ (List.mem_of_mem_filter hmem) rfl
  · exact hR.nodup.sublist (List.filter_sublist L)

/-! ### insert: the non-duplicate case -/

theorem insertNew_spec {st : SkipList α} {L : List Nat} (hR : Represents st L)
    (k : α) (hk : ¬ k ∈ L.map st.keyAt) :
    Represents (st.insertNew k ((List.range st.maxLevel).map (st.predAt L k)))
      (st.lowIds L k ++ st.nodes.length :: st.highIds L k) ∧
    (st.lowIds L k ++ st.nodes.length :: st.highIds L k).map
      (st.insertNew k ((List.range st.maxLevel).map (st.predAt L k))).keyAt =
      (st.lowIds L k).map st.keyAt ++ k :: (st.highIds L k).map st.keyAt ∧
    (st.insertNew k ((List.range st.maxLevel).map (st.predAt L k))).maxLevel =
      max st.maxLevel (randomLevel st.coins st.maxLevel st.maxAllowedLevel).1 ∧
    (st.insertNew k ((List.range st.maxLevel).map (st.predAt L k))).maxAllowedLevel =
      st.maxAllowedLevel ∧
    (st.insertNew k ((List.range st.maxLevel).map (st.predAt L k))).coins =
      (randomLevel st.coins st.maxLevel st.maxAllowedLevel).2 ∧
    (st.insertNew k ((List.range st.maxLevel).map (st.predAt L k))).head =
      st.head ∧
    (st.insertNew k ((List.range st.maxLevel).map (st.predAt L k))).nodes.length =
      st.nodes.length + 1 := by
  have hrl := randomLevel_bounds st.coins st.maxLevel st.maxAllowedLevel
  set nl := (randomLevel st.coins st.maxLevel st.maxAllowedLevel).1 with hnl
  set upd := (List.range st.maxLevel).map (st.predAt L k) with hupd
  set st1 : SkipList α := { st with
    coins := (randomLevel st.coins st.maxLevel st.maxAllowedLevel).2 } with hst1
  set st2 : SkipList α :=
    if st.maxLevel < nl then
      { st1 with
        nodes := setNodeNext st1.nodes st1.head
          (resizeFill (st1.nextList st1.head) nl none),
        maxLevel := nl }
    else st1 with hst2
  set update2 : List Nat :=
    if st.maxLevel < nl then upd ++ List.replicate (nl - st.maxLevel) st.head
    else upd with hupdate2
  set newId := st2.nodes.length with hnewId
  set st3 : SkipList α := { st2 with
    nodes := st2.nodes ++ [⟨k, List.replicate nl none⟩] } with hst3
  set ps := (update2.take nl).enum with hps
  have hIN : st.insertNew k upd = spliceLoop newId st3 ps := rfl
  have hlist1 : st1.nextList st1.head = st.nextList st.head := rfl
  have hheadlen : (st.nextList st.head).length = st.maxLevel := hR.head_len
  have hst2facts :
      st2.head = st.head ∧
      st2.maxLevel = max st.maxLevel nl ∧
      st2.maxAllowedLevel = st.maxAllowedLevel ∧
      st2.coins = (randomLevel st.coins st.maxLevel st.maxAllowedLevel).2 ∧
      st2.nodes.length = st.nodes.length ∧
      (∀ m, st2.keyAt m = st.keyAt m) ∧
      (∀ m, m ≠ st.head → st2.nextList m = st.nextList m) ∧
      st2.nextList st.head =
        st.nextList st.head ++
          List.replicate (max st.maxLevel nl - st.maxLevel) none := by
    rw [hst2]
    by_cases hg : st.maxLevel < nl
    · rw [if_pos hg]
      refine ⟨rfl, ?_, rfl, rfl, ?_, ?_, ?_, ?_⟩
      · show nl = max st.maxLevel nl
        omega
      · exact length_of_setNodeNext st1 _ _ _ rfl
      · exact fun m => keyAt_of_setNodeNext st1 _ _ _ rfl m
      · exact fun m hm => nextList_of_setNodeNext_ne st1 _ _ _ rfl m hm
      · have h1 := nextList_of_setNodeNext_self st1
          { st1 with
            nodes := setNodeNext st1.nodes st1.head
              (resizeFill (st1.nextList st1.head) nl none),
            maxLevel := nl }
          st1.head (resizeFill (st1.nextList st1.head) nl none) rfl hR.head_lt
        rw [h1, hlist1]
        unfold resizeFill
        rw [List.take_of_length_le (by rw [hheadlen]; omega)]
        congr 2
        rw [hheadlen]
        omega
    · rw [if_neg hg]
      refine ⟨rfl, ?_, rfl, rfl, rfl, fun m => rfl, fun m hm => rfl, ?_⟩
      · show st.maxLevel = max st.maxLevel nl
        omega
      · have hz : max st.maxLevel nl - st.maxLevel = 0 := by omega
        rw [hz]
        simp [hlist1]
  obtain ⟨h2head, h2ML, h2MA, h2coins, h2len, h2key, h2nextNe, h2nextHead⟩ :=
    hst2facts
  have hnewIdlen : newId = st.nodes.length := by rw [hnewId, h2len]
  have h3head : st3.head = st.head := h2head
  have h3ML : st3.maxLevel = max st.maxLevel nl := h2ML
  have h3MA : st3.maxAllowedLevel = st.maxAllowedLevel := h2MA
  have h3coins : st3.coins =
      (randomLevel st.coins st.maxLevel st.maxAllowedLevel).2 := h2coins
  have h3len : st3.nodes.length = st.nodes.length + 1 := by
    have he : st3.nodes = st2.nodes ++ [(⟨k, List.replicate nl none⟩ : Node α)] :=
      rfl
    rw [he, List.length_append, h2len]
    rfl
  have h3key_lt : ∀ m, m < st.nodes.length → st3.keyAt m = st.keyAt m := by
    intro m hm
    have h := keyAt_of_append_lt st2 st3 ⟨k, List.replicate nl none⟩ rfl m
      (by omega)
    rw [h, h2key]
  have h3key_new : st3.keyAt newId = k :=
    keyAt_of_append_new st2 st3 ⟨k, List.replicate nl none⟩ rfl
  have h3next_lt : ∀ m, m < st.nodes.length → st3.nextList m = st2.nextList m := by
    intro m hm
    exact nextList_of_append_lt st2 st3 ⟨k, List.replicate nl none⟩ rfl m (by omega)
  have h3next_new : st3.nextList newId = List.replicate nl none :=
    nextList_of_append_new st2 st3 ⟨k, List.replicate nl none⟩ rfl
  have h3level_new : st3.levelOf newId = nl := by
    unfold levelOf
    rw [h3next_new, List.length_replicate]
  have h3ptr_head_lt : ∀ i, i < st.maxLevel →
      st3.nextPtr st.head i = st.nextPtr st.head i := by
    intro i hi
    unfold nextPtr
    rw [h3next_lt st.head hR.head_lt, h2nextHead,
      List.getD_eq_getElem?_getD, List.getD_eq_getElem?_getD,
      List.getElem?_append, if_pos (by rw [hheadlen]; omega)]
  have h3ptr_head_ge : ∀ i, st.maxLevel ≤ i → st3.nextPtr st.head i = none := by
    intro i hi
    unfold nextPtr
    rw [h3next_lt st.head hR.head_lt, h2nextHead,
      List.getD_eq_getElem?_getD, List.getElem?_append,
      if_neg (by rw [hheadlen]; omega), List.getElem?_replicate]
    split <;> rfl
  have h3ptr_ne : ∀ m, m ≠ st.head → m < st.nodes.length → ∀ i,
      st3.nextPtr m i = st.nextPtr m i := by
    intro m hm hlt i
    unfold nextPtr
    rw [h3next_lt m hlt, h2nextNe m hm]
  have hchain3 : ∀ i, i < max st.maxLevel nl →
      IsChain st3 i st.head (st.belowAt L k i ++ st.aboveAt L k i) := by
    intro i hi
    by_cases him : i < st.maxLevel
    · have hch := hR.chains i him
      rw [chainIds_eq_below_above st L k i] at hch
      apply isChain_congr hch
      intro n hn
      rcases hn with rfl | hmem
      · exact h3ptr_head_lt i him
      · have hnL : n ∈ L := by
          rcases List.mem_append.mp hmem with h | h
          · exact belowAt_subset st L k i n h
          · exact aboveAt_subset st L k i n h
        exact h3ptr_ne n (hR.ne_head n hnL) (hR.mem_lt n hnL) i
    · push_neg at him
      rw [belowAt_ge_nil hR k i him, aboveAt_ge_nil hR k i him]
      show IsChain st3 i st.head []
      unfold IsChain
      exact h3ptr_head_ge i him
  have hupdtake : update2.take nl = (List.range nl).map (st.predAt L k) := by
    rw [hupdate2]
    by_cases hg : st.maxLevel < nl
    · rw [if_pos hg]
      have hlup : upd.length = st.maxLevel := by
        rw [hupd, List.length_map, List.length_range]
      rw [List.take_of_length_le
        (by rw [List.length_append, hlup, List.length_replicate]; omega)]
      have hsplit : nl = st.maxLevel + (nl - st.maxLevel) := by omega
      conv_rhs => rw [hsplit]
      rw [List.range_add, List.map_append, hupd]
      congr 1
      rw [List.map_map]
      symm
      rw [List.eq_replicate_iff]
      constructor
      · rw [List.length_map, List.length_range]
      · intro b hb
        obtain ⟨x, hx, rfl⟩ := List.mem_map.mp hb
        exact predAt_ge hR k _ (Nat.le_add_right _ _)
    · rw [if_neg hg]
      rw [hupd, ← List.map_take, List.take_range]
      congr 2
      omega
  have hps2 : ps = (List.range nl).map (fun i => (i, st.predAt L k i)) := by
    rw [hps, hupdtake, List.enum_eq_zip_range, List.length_map,
      List.length_range]
    have hz := List.zip_map' id (st.predAt L k) (List.range nl)
    rw [List.map_id] at hz
    rw [hz]
    rfl
  have hpschar : ∀ p ∈ ps, p.1 < nl ∧ p.2 = st.predAt L k p.1 := by
    rw [hps2]
    intro p hp
    obtain ⟨i, hi, rfl⟩ := List.mem_map.mp hp
    exact ⟨List.mem_range.mp hi, rfl⟩
  have hpsnodup : (ps.map Prod.fst).Nodup := by
    rw [hps2, List.map_map]
    have he : (Prod.fst ∘ fun i => (i, st.predAt L k i)) = id := rfl
    rw [he, List.map_id]
    exact List.nodup_range nl
  have hpsne : ∀ p ∈ ps, p.2 ≠ newId := by
    intro p hp
    rw [(hpschar p hp).2, hnewIdlen]
    exact Nat.ne_of_lt (predAt_lt hR k p.1)
  have hpsmem : ∀ i, i < nl → (i, st.predAt L k i) ∈ ps := by
    rw [hps2]
    intro i hi
    exact List.mem_map.mpr ⟨i, List.mem_range.mpr hi, rfl⟩
  have h3level_head : st3.levelOf st.head = max st.maxLevel nl := by
    unfold levelOf
    rw [h3next_lt st.head hR.head_lt, h2nextHead, List.length_append,
      List.length_replicate, hheadlen]
    omega
  have hlevelu : ∀ i, i < nl → i < st3.levelOf (st.predAt L k i) := by
    intro i hi
    rcases predAt_head_or_below st L k i with h | h
    · rw [h, h3level_head]
      omega
    · have hmem := List.mem_filter.mp h
      have hlev : i < st.levelOf (st.predAt L k i) := of_decide_eq_true hmem.2
      have hnL : st.predAt L k i ∈ L := lowIds_subset st L k _ hmem.1
      have heq : st3.levelOf (st.predAt L k i) = st.levelOf (st.predAt L k i) := by
        unfold levelOf
        rw [h3next_lt _ (hR.mem_lt _ hnL), h2nextNe _ (hR.ne_head _ hnL)]
      omega
  have hlevelnid : ∀ i, i < nl → i < st3.levelOf newId := by
    intro i hi
    rw [h3level_new]
    exact hi
  rw [hIN]
  set stF := spliceLoop newId st3 ps with hstF
  have hFfields := spliceLoop_fields newId st3 ps
  obtain ⟨hFf1, hFf2, hFf3, hFf4, hFf5, hFf6, hFf7⟩ := hFfields
  have hsp_self : ∀ i, i < nl → stF.nextPtr (st.predAt L k i) i = some newId :=
    fun i hi => nextPtr_spliceLoop_self newId st3 ps i _ (hpsmem i hi)
      hpsnodup hpsne (hlevelu i hi)
  have hsp_new : ∀ i, i < nl →
      stF.nextPtr newId i = st3.nextPtr (st.predAt L k i) i :=
    fun i hi => nextPtr_spliceLoop_new newId st3 ps i _ (hpsmem i hi)
      hpsnodup hpsne (hlevelnid i hi)
  have hsp_frame : ∀ m j, (j < nl → m ≠ st.predAt L k j ∧ m ≠ newId) →
      stF.nextPtr m j = st3.nextPtr m j := by
    intro m j hcond
    apply nextPtr_spliceLoop_frame
    intro p hp
    obtain ⟨hp1, hp2⟩ := hpschar p hp
    by_cases hj : j = p.1
    · right
      rw [hp2, ← hj]
      exact hcond (hj ▸ hp1)
    · left
      exact hj
  have hFhead : stF.head = st.head := hFf1.trans h3head
  have hFML : stF.maxLevel = max st.maxLevel nl := hFf2.trans h3ML
  have hFMA : stF.maxAllowedLevel = st.maxAllowedLevel := hFf3.trans h3MA
  have hFcoins : stF.coins =
      (randomLevel st.coins st.maxLevel st.maxAllowedLevel).2 :=
    hFf4.trans h3coins
  have hFlen : stF.nodes.length = st.nodes.length + 1 := hFf5.trans h3len
  have hFkey_lt : ∀ m, m < st.nodes.length → stF.keyAt m = st.keyAt m :=
    fun m hm => (hFf6 m).trans (h3key_lt m hm)
  have hFkey_new : stF.keyAt newId = k := (hFf6 newId).trans h3key_new
  have hFlevel_ne : ∀ m, m ≠ st.head → m < st.nodes.length →
      stF.levelOf m = st.levelOf m := by
    intro m hm hlt
    rw [hFf7 m]
    unfold levelOf
    rw [h3next_lt m hlt, h2nextNe m hm]
  have hFlevel_new : stF.levelOf newId = nl := (hFf7 newId).trans h3level_new
  have hFlevel_head : stF.levelOf st.head = max st.maxLevel nl :=
    (hFf7 st.head).trans h3level_head
  have hLmem : ∀ n ∈ L, n < st.nodes.length := hR.mem_lt
  have hchainF : ∀ i,
      stF.chainIds (st.lowIds L k ++ newId :: st.highIds L k) i =
        st.belowAt L k i ++
          (if i < nl then newId :: st.aboveAt L k i else st.aboveAt L k i) := by
    intro i
    unfold chainIds
    rw [List.filter_append, List.filter_cons]
    congr 1
    · unfold belowAt
      apply List.filter_congr
      intro n hn
      have hnL : n ∈ L := lowIds_subset st L k n hn
      rw [hFlevel_ne n (hR.ne_head n hnL) (hLmem n hnL)]
    · have hfil : (st.highIds L k).filter
          (fun n => decide (i < stF.levelOf n)) = st.aboveAt L k i := by
        unfold aboveAt
        apply List.filter_congr
        intro n hn
        have hnL : n ∈ L := highIds_subset st L k n hn
        rw [hFlevel_ne n (hR.ne_head n hnL) (hLmem n hnL)]
      rw [hfil, hFlevel_new]
      by_cases hi : i < nl
      · rw [if_pos (decide_eq_true hi), if_pos hi]
      · rw [if_neg (by rw [decide_eq_true_eq]; exact hi), if_neg hi]
  have hnidnotin : ∀ i, newId ∉ st.head :: (st.belowAt L k i ++ st.aboveAt L k i) := by
    intro i hmem
    have hhl := hR.head_lt
    rcases List.mem_cons.mp hmem with h | h
    · omega
    · have : newId ∈ L := by
        rcases List.mem_append.mp h with h2 | h2
        · exact belowAt_subset st L k i _ h2
        · exact aboveAt_subset st L k i _ h2
      have := hLmem _ this
      omega
  have hmapkeys : (st.lowIds L k ++ newId :: st.highIds L k).map stF.keyAt =
      (st.lowIds L k).map st.keyAt ++ k :: (st.highIds L k).map st.keyAt := by
    rw [List.map_append, List.map_cons]
    congr 1
    · apply List.map_congr_left
      intro n hn
      exact hFkey_lt n (hLmem n (lowIds_subset st L k n hn))
    · rw [hFkey_new]
      congr 1
      apply List.map_congr_left
      intro n hn
      exact hFkey_lt n (hLmem n (highIds_subset st L k n hn))
  have hsorted2 : ((st.lowIds L k).map st.keyAt ++
      (st.highIds L k).map st.keyAt).Pairwise (· < ·) := by
    rw [← List.map_append, lowIds_append_highIds]
    exact hR.sorted
  obtain ⟨hpLo, hpHi, hcross⟩ := List.pairwise_append.mp hsorted2
  have hkHi : ∀ y ∈ (st.highIds L k).map st.keyAt, k < y := by
    intro y hy
    obtain ⟨n, hn, rfl⟩ := List.mem_map.mp hy
    have h1 : ¬ st.keyAt n < k := highIds_key_not_lt st k hR.sorted n hn
    have h2 : st.keyAt n ≠ k := by
      intro he
      exact hk (List.mem_map.mpr ⟨n, highIds_subset st L k n hn, he⟩)
    rcases lt_trichotomy k (st.keyAt n) with h | h | h
    · exact h
    · exact absurd h.symm h2
    · exact absurd h h1
  have hsortedF : ((st.lowIds L k ++ newId :: st.highIds L k).map
      stF.keyAt).Pairwise (· < ·) := by
    rw [hmapkeys]
    rw [List.pairwise_append]
    refine ⟨hpLo, ?_, ?_⟩
    · rw [List.pairwise_cons]
      exact ⟨hkHi, hpHi⟩
    · intro x hx y hy
      rcases List.mem_cons.mp hy with heq | hy2
      · obtain ⟨n, hn, rfl⟩ := List.mem_map.mp hx
        rw [heq]
        exact lowIds_key_lt st L k n hn
      · exact hcross x hx y hy2
  rw [← hnewIdlen]
  refine ⟨⟨?_, ?_, ?_, ?_, ?_, ?_, hsortedF, ?_, ?_, ?_⟩,
    hmapkeys, hFML, hFMA, hFcoins, hFhead, by rw [hFlen, hnewIdlen]⟩
  · rw [hFhead, hFlen]
    have := hR.head_lt
    omega
  · rw [hFhead, hFlevel_head, hFML]
  · rw [hFML]
    have := hR.one_le
    omega
  · intro n hn
    rw [hFlen]
    rcases List.mem_append.mp hn with h | h
    · have := hLmem n (lowIds_subset st L k n h)
      omega
    · rcases List.mem_cons.mp h with rfl | h2
      · omega
      · have := hLmem n (highIds_subset st L k n h2)
        omega
  · intro n hn
    rw [hFhead]
    have hhl := hR.head_lt
    rcases List.mem_append.mp hn with h | h
    · exact hR.ne_head n (lowIds_subset st L k n h)
    · rcases List.mem_cons.mp h with rfl | h2
      · omega
      · exact hR.ne_head n (highIds_subset st L k n h2)
  · rw [List.nodup_middle, List.nodup_cons]
    constructor
    · rw [lowIds_append_highIds]
      intro hmem
      have := hLmem _ hmem
      omega
    · rw [lowIds_append_highIds]
      exact hR.nodup
  · intro n hn
    rcases List.mem_append.mp hn with h | h
    · have hnL : n ∈ L := lowIds_subset st L k n h
      rw [hFlevel_ne n (hR.ne_head n hnL) (hLmem n hnL)]
      exact hR.level_pos n hnL
    · rcases List.mem_cons.mp h with rfl | h2
      · rw [hFlevel_new]
        omega
      · have hnL : n ∈ L := highIds_subset st L k n h2
        rw [hFlevel_ne n (hR.ne_head n hnL) (hLmem n hnL)]
        exact hR.level_pos n hnL
  · intro n hn
    rw [hFML]
    rcases List.mem_append.mp hn with h | h
    · have hnL : n ∈ L := lowIds_subset st L k n h
      rw [hFlevel_ne n (hR.ne_head n hnL) (hLmem n hnL)]
      have := hR.level_le n hnL
      omega
    · rcases List.mem_cons.mp h with rfl | h2
      · rw [hFlevel_new]
        omega
      · have hnL : n ∈ L := highIds_subset st L k n h2
        rw [hFlevel_ne n (hR.ne_head n hnL) (hLmem n hnL)]
        have := hR.level_le n hnL
        omega
  · intro i hi
    rw [hFML] at hi
    rw [hFhead, hchainF i]
    by_cases hinl : i < nl
    · rw [if_pos hinl]
      refine isChain_insert_mid (hchain3 i hi) rfl ?_ (hnidnotin i)
        (hsp_self i hinl) (hsp_new i hinl) ?_
      · have := chainIds_nodup hR i
        rw [chainIds_eq_below_above st L k i] at this
        exact this
      · intro n hn1 hn2
        exact hsp_frame n i (fun _ => ⟨hn1, hn2⟩)
    · rw [if_neg hinl]
      apply isChain_congr (hchain3 i hi)
      intro n hn
      exact hsp_frame n i (fun hlt => absurd hlt hinl)

theorem enum_map_range (n : Nat) (f : Nat → Nat) :
    ((List.range n).map f).enum = (List.range n).map (fun i => (i, f i)) := by
  rw [List.enum_eq_zip_range, List.length_map, List.length_range]
  have hz := List.zip_map' id f (List.range n)
  rw [List.map_id] at hz
  rw [hz]
  rfl

theorem isChain_pred {st : SkipList α} {L : List Nat} (hR : Represents st L)
    (k : α) (i : Nat) (hi : i < st.maxLevel) :
    IsChain st i (st.predAt L k i) (st.aboveAt L k i) := by
  have hch := hR.chains i hi
  rw [chainIds_eq_below_above st L k i] at hch
  exact isChain_append hch

theorem insert_cases {st : SkipList α} {L : List Nat} (hR : Represents st L)
    (k : α) :
    st.insert k =
      match (st.highIds L k).head? with
      | some c =>
        if st.keyAt c = k then st
        else st.insertNew k ((List.range st.maxLevel).map (st.predAt L k))
      | none => st.insertNew k ((List.range st.maxLevel).map (st.predAt L k)) := by
  unfold insert
  rw [searchLevels_main hR k]
  show (match st.nextPtr (st.predAt L k 0) 0 with
    | some m =>
      if st.keyAt m = k then st
      else st.insertNew k ((List.range st.maxLevel).map (st.predAt L k))
    | none => st.insertNew k ((List.range st.maxLevel).map (st.predAt L k))) = _
  rw [nextPtr_pred_zero hR k, aboveAt_zero hR k]

theorem insert_eq_self {st : SkipList α} {L : List Nat} (hR : Represents st L)
    (k : α) (hk : k ∈ L.map st.keyAt) : st.insert k = st := by
  obtain ⟨c, rest, hcr, hck⟩ := (mem_keys_iff hR k).mp hk
  rw [insert_cases hR k, hcr]
  show (if st.keyAt c = k then st
    else st.insertNew k ((List.range st.maxLevel).map (st.predAt L k))) = st
  rw [if_pos hck]

theorem insert_eq_insertNew {st : SkipList α} {L : List Nat}
    (hR : Represents st L) (k : α) (hk : ¬ k ∈ L.map st.keyAt) :
    st.insert k = st.insertNew k ((List.range st.maxLevel).map (st.predAt L k)) := by
  rw [insert_cases hR k]
  cases hcr : st.highIds L k with
  | nil => rfl
  | cons c rest =>
    show (if st.keyAt c = k then st
      else st.insertNew k ((List.range st.maxLevel).map (st.predAt L k))) = _
    rw [if_neg]
    intro hck
    exact hk ((mem_keys_iff hR k).mpr ⟨c, rest, hcr, hck⟩)

theorem erase_cases {st : SkipList α} {L : List Nat} (hR : Represents st L)
    (k : α) :
    st.erase k =
      match (st.highIds L k).head? with
      | some m =>
        if st.keyAt m = k then
          (true, SkipList.shrink (SkipList.unlinkLoop m st
            (((List.range st.maxLevel).map (st.predAt L k)).enum)))
        else (false, st)
      | none => (false, st) := by
  unfold erase
  rw [searchLevels_main hR k]
  show (match st.nextPtr (st.predAt L k 0) 0 with
    | none => (false, st)
    | some m =>
      if st.keyAt m = k then
        (true, SkipList.shrink (SkipList.unlinkLoop m st
          (((List.range st.maxLevel).map (st.predAt L k)).enum)))
      else (false, st)) = _
  rw [nextPtr_pred_zero hR k, aboveAt_zero hR k]
  cases st.highIds L k with
  | nil => rfl
  | cons c rest => rfl

theorem erase_not_mem {st : SkipList α} {L : List Nat} (hR : Represents st L)
    (k : α) (hk : ¬ k ∈ L.map st.keyAt) :
    st.erase k = (false, st) := by
  rw [erase_cases hR k]
  cases hcr : st.highIds L k with
  | nil => rfl
  | cons c rest =>
    show (if st.keyAt c = k then _ else (false, st)) = (false, st)
    rw [if_neg]
    intro hck
    exact hk ((mem_keys_iff hR k).mpr ⟨c, rest, hcr, hck⟩)

/-! ### shrink preserves the representation -/

theorem shrink_represents {st4 : SkipList α} {L2 : List Nat}
    (hR4 : Represents st4 L2) :
    Represents (shrink st4) L2 ∧
    (shrink st4).maxLevel ≤ st4.maxLevel ∧
    (shrink st4).head = st4.head ∧
    (shrink st4).maxAllowedLevel = st4.maxAllowedLevel ∧
    (shrink st4).coins = st4.coins ∧
    (shrink st4).nodes.length = st4.nodes.length ∧
    (∀ m, (shrink st4).keyAt m = st4.keyAt m) := by
  set hn := st4.nextList st4.head with hhn
  have hlen : hn.length = st4.maxLevel := hR4.head_len
  set r := shrinkAux st4.maxLevel hn with hr
  have hml1 : 1 ≤ r.1 := shrinkAux_one_le st4.maxLevel hn hR4.one_le
  have hmlle : r.1 ≤ st4.maxLevel := shrinkAux_le st4.maxLevel hn
  have htake : r.2 = hn.take r.1 := shrinkAux_take st4.maxLevel hn hlen
  set stE := shrink st4 with hstE
  have hEnodes : stE.nodes = setNodeNext st4.nodes st4.head r.2 := rfl
  have hEhead : stE.head = st4.head := rfl
  have hEML : stE.maxLevel = r.1 := rfl
  have hEMA : stE.maxAllowedLevel = st4.maxAllowedLevel := rfl
  have hEcoins : stE.coins = st4.coins := rfl
  have hElen : stE.nodes.length = st4.nodes.length :=
    length_of_setNodeNext st4 stE st4.head r.2 hEnodes
  have hEkey : ∀ m, stE.keyAt m = st4.keyAt m :=
    keyAt_of_setNodeNext st4 stE st4.head r.2 hEnodes
  have hEnextNe : ∀ m, m ≠ st4.head → stE.nextList m = st4.nextList m :=
    fun m hm => nextList_of_setNodeNext_ne st4 stE st4.head r.2 hEnodes m hm
  have hEnextHead : stE.nextList st4.head = hn.take r.1 := by
    rw [nextList_of_setNodeNext_self st4 stE st4.head r.2 hEnodes hR4.head_lt]
    exact htake
  have hElevelNe : ∀ m, m ≠ st4.head → stE.levelOf m = st4.levelOf m := by
    intro m hm
    unfold levelOf
    rw [hEnextNe m hm]
  have hElevelHead : stE.levelOf st4.head = r.1 := by
    unfold levelOf
    rw [hEnextHead, List.length_take]
    omega
  have hEptrHead : ∀ i, i < r.1 →
      stE.nextPtr st4.head i = st4.nextPtr st4.head i := by
    intro i hi
    unfold nextPtr
    rw [hEnextHead, List.getD_eq_getElem?_getD, List.getD_eq_getElem?_getD,
      List.getElem?_take, if_pos hi, hhn]
  have hEptrNe : ∀ m, m ≠ st4.head → ∀ i, stE.nextPtr m i = st4.nextPtr m i := by
    intro m hm i
    unfold nextPtr
    rw [hEnextNe m hm]
  have hlevle : ∀ n ∈ L2, st4.levelOf n ≤ r.1 := by
    intro n hnm
    by_contra hgt
    push_neg at hgt
    have hlevml := hR4.level_le n hnm
    set j := st4.levelOf n - 1 with hj
    have hj1 : r.1 ≤ j := by omega
    have hj2 : j < st4.maxLevel := by omega
    have hpop : hn.getD j none = none :=
      shrinkAux_popped st4.maxLevel hn hlen j hj1 hj2
    have hch := hR4.chains j hj2
    have hmemc : n ∈ st4.chainIds L2 j := by
      unfold chainIds
      rw [List.mem_filter]
      refine ⟨hnm, ?_⟩
      simp
      omega
    cases hcc : st4.chainIds L2 j with
    | nil =>
      rw [hcc] at hmemc
      cases hmemc
    | cons x xs =>
      rw [hcc] at hch
      unfold IsChain at hch
      have : st4.nextPtr st4.head j = none := hpop
      rw [this] at hch
      cases hch.1
  refine ⟨⟨?_, ?_, ?_, ?_, ?_, hR4.nodup, ?_, ?_, ?_, ?_⟩,
    by rw [hEML]; exact hmlle, hEhead, hEMA, hEcoins, hElen, hEkey⟩
  · rw [hEhead, hElen]
    exact hR4.head_lt
  · rw [hEhead, hElevelHead, hEML]
  · rw [hEML]
    exact hml1
  · intro n hnm
    rw [hElen]
    exact hR4.mem_lt n hnm
  · intro n hnm
    rw [hEhead]
    exact hR4.ne_head n hnm
  · have : L2.map stE.keyAt = L2.map st4.keyAt :=
      List.map_congr_left (fun n _ => hEkey n)
    rw [this]
    exact hR4.sorted
  · intro n hnm
    rw [hElevelNe n (hR4.ne_head n hnm)]
    exact hR4.level_pos n hnm
  · intro n hnm
    rw [hEML, hElevelNe n (hR4.ne_head n hnm)]
    exact hlevle n hnm
  · intro i hi
    rw [hEML] at hi
    rw [hEhead]
    have hchEq : stE.chainIds L2 i = st4.chainIds L2 i := by
      unfold chainIds
      apply List.filter_congr
      intro n hnm
      rw [hElevelNe n (hR4.ne_head n hnm)]
    rw [hchEq]
    apply isChain_congr (hR4.chains i (by omega))
    intro n hnmem
    rcases hnmem with rfl | hnmem
    · exact hEptrHead i hi
    · exact hEptrNe n
        (hR4.ne_head n (List.mem_of_mem_filter hnmem)) i

theorem nextPtr_pred {st : SkipList α} {L : List Nat} (hR : Represents st L)
    (k : α) (i : Nat) (hi : i < st.maxLevel) :
    st.nextPtr (st.predAt L k i) i = (st.aboveAt L k i).head? := by
  have hch := isChain_pred hR k i hi
  cases h : st.aboveAt L k i with
  | nil =>
    rw [h] at hch
    unfold IsChain at hch
    rw [hch]
    rfl
  | cons c restc =>
    rw [h] at hch
    unfold IsChain at hch
    rw [hch.1]
    rfl

theorem erase_mem_spec {st : SkipList α} {L : List Nat} (hR : Represents st L)
    (k : α) (hk : k ∈ L.map st.keyAt) :
    ∃ c rest, st.highIds L k = c :: rest ∧ st.keyAt c = k ∧
      (st.erase k).1 = true ∧
      Represents (st.erase k).2 (st.lowIds L k ++ rest) ∧
      (st.lowIds L k ++ rest).map (st.erase k).2.keyAt =
        (st.lowIds L k).map st.keyAt ++ rest.map st.keyAt ∧
      (st.erase k).2.maxLevel ≤ st.maxLevel ∧
      (st.erase k).2.maxAllowedLevel = st.maxAllowedLevel ∧
      (st.erase k).2.coins = st.coins ∧
      (st.erase k).2.nodes.length = st.nodes.length ∧
      (st.erase k).2.head = st.head := by
  obtain ⟨c, rest, hcr, hck⟩ := (mem_keys_iff hR k).mp hk
  set ps := (((List.range st.maxLevel)).map (st.predAt L k)).enum with hps
  have hdisp : st.erase k =
      (true, SkipList.shrink (SkipList.unlinkLoop c st ps)) := by
    rw [erase_cases hR k, hcr]
    show (if st.keyAt c = k then
      (true, SkipList.shrink (SkipList.unlinkLoop c st ps)) else (false, st)) = _
    rw [if_pos hck]
  have hps2 : ps = (List.range st.maxLevel).map
      (fun i => (i, st.predAt L k i)) := by
    rw [hps, enum_map_range]
  have hpschar : ∀ p ∈ ps, p.1 < st.maxLevel ∧ p.2 = st.predAt L k p.1 := by
    rw [hps2]
    intro p hp
    obtain ⟨i, hi, rfl⟩ := List.mem_map.mp hp
    exact ⟨List.mem_range.mp hi, rfl⟩
  have hpsnodup : (ps.map Prod.fst).Nodup := by
    rw [hps2, List.map_map]
    have he : (Prod.fst ∘ fun i => (i, st.predAt L k i)) = id := rfl
    rw [he, List.map_id]
    exact List.nodup_range st.maxLevel
  have hpsmem : ∀ i, i < st.maxLevel → (i, st.predAt L k i) ∈ ps := by
    rw [hps2]
    intro i hi
    exact List.mem_map.mpr ⟨i, List.mem_range.mpr hi, rfl⟩
  have hLsplit : st.lowIds L k ++ c :: rest = L := by
    rw [← hcr]
    exact lowIds_append_highIds st L k
  have hcL : c ∈ L := by
    rw [← hLsplit]
    exact List.mem_append_right _ (List.mem_cons_self _ _)
  have hndm : (c :: (st.lowIds L k ++ rest)).Nodup := by
    rw [← List.nodup_middle, hLsplit]
    exact hR.nodup
  rw [List.nodup_cons] at hndm
  have hcnotin : c ∉ st.lowIds L k ++ rest := hndm.1
  have hcnLo : c ∉ st.lowIds L k := fun h => hcnotin (List.mem_append_left _ h)
  have hcnrest : c ∉ rest := fun h => hcnotin (List.mem_append_right _ h)
  have hpsnec : ∀ p ∈ ps, p.2 ≠ c := by
    intro p hp heq
    rcases predAt_head_or_below st L k p.1 with h | h
    · rw [(hpschar p hp).2, h] at heq
      exact hR.ne_head c hcL heq.symm
    · rw [(hpschar p hp).2] at heq
      rw [heq] at h
      exact hcnLo (List.mem_of_mem_filter h)
  set stU := SkipList.unlinkLoop c st ps with hstU
  obtain ⟨hUf1, hUf2, hUf3, hUf4, hUf5, hUf6, hUf7⟩ :=
    unlinkLoop_fields c st ps
  have hU_self : ∀ i, i < st.maxLevel →
      stU.nextPtr (st.predAt L k i) i =
        if st.nextPtr (st.predAt L k i) i = some c then st.nextPtr c i
        else st.nextPtr (st.predAt L k i) i :=
    fun i hi => nextPtr_unlinkLoop_self c st ps i _ (hpsmem i hi)
      hpsnodup hpsnec
  have hU_frame : ∀ m j, (j < st.maxLevel → m ≠ st.predAt L k j) →
      stU.nextPtr m j = st.nextPtr m j := by
    intro m j hcond
    apply nextPtr_unlinkLoop_frame
    intro p hp
    obtain ⟨hp1, hp2⟩ := hpschar p hp
    by_cases hj : j = p.1
    · right
      rw [hp2, ← hj]
      exact hcond (hj ▸ hp1)
    · left
      exact hj
  have habove : ∀ i, st.aboveAt L k i =
      if i < st.levelOf c then
        c :: rest.filter (fun n => decide (i < st.levelOf n))
      else rest.filter (fun n => decide (i < st.levelOf n)) := by
    intro i
    unfold aboveAt
    rw [hcr, List.filter_cons]
    by_cases hic : i < st.levelOf c
    · rw [if_pos (decide_eq_true hic), if_pos hic]
    · rw [if_neg (by rw [decide_eq_true_eq]; exact hic), if_neg hic]
  have hcond_true : ∀ i, i < st.maxLevel → i < st.levelOf c →
      st.nextPtr (st.predAt L k i) i = some c := by
    intro i h1 h2
    rw [nextPtr_pred hR k i h1, habove i, if_pos h2]
    rfl
  have hcond_false : ∀ i, i < st.maxLevel → ¬ i < st.levelOf c →
      ¬ st.nextPtr (st.predAt L k i) i = some c := by
    intro i h1 h2 heq
    rw [nextPtr_pred hR k i h1, habove i, if_neg h2] at heq
    exact hcnrest (List.mem_of_mem_filter (List.mem_of_mem_head? heq))
  have hUchains : ∀ i, i < st.maxLevel →
      IsChain stU i st.head
        (st.belowAt L k i ++
          rest.filter (fun n => decide (i < st.levelOf n))) := by
    intro i hi
    have hch := hR.chains i hi
    rw [chainIds_eq_below_above st L k i] at hch
    by_cases hic : i < st.levelOf c
    · rw [habove i, if_pos hic] at hch
      refine isChain_erase_mid hch rfl ?_ ?_ ?_
      · have hnd := chainIds_nodup hR i
        rw [chainIds_eq_below_above st L k i, habove i, if_pos hic] at hnd
        exact hnd
      · show stU.nextPtr (st.predAt L k i) i = st.nextPtr c i
        rw [hU_self i hi, if_pos (hcond_true i hi hic)]
      · intro n hn
        exact hU_frame n i (fun _ => hn)
    · rw [habove i, if_neg hic] at hch
      apply isChain_congr hch
      intro n hnm
      by_cases hnp : n = st.predAt L k i
      · rw [hnp, hU_self i hi, if_neg (hcond_false i hi hic)]
      · exact hU_frame n i (fun _ => hnp)
  have hsub : List.Sublist (st.lowIds L k ++ rest) L := by
    have h1 : List.Sublist (st.lowIds L k ++ rest) (st.lowIds L k ++ c :: rest) :=
      List.Sublist.append (List.Sublist.refl _)
        (List.Sublist.cons c (List.Sublist.refl rest))
    rw [hLsplit] at h1
    exact h1
  have hUkey : ∀ m, stU.keyAt m = st.keyAt m := hUf6
  have hUlevel : ∀ m, stU.levelOf m = st.levelOf m := hUf7
  have hRU : Represents stU (st.lowIds L k ++ rest) := by
    refine ⟨?_, ?_, ?_, ?_, ?_, ?_, ?_, ?_, ?_, ?_⟩
    · rw [hUf1, hUf5]
      exact hR.head_lt
    · rw [hUf1, hUf2, hUlevel]
      exact hR.head_len
    · rw [hUf2]
      exact hR.one_le
    · intro n hn
      rw [hUf5]
      exact hR.mem_lt n (hsub.subset hn)
    · intro n hn
      rw [hUf1]
      exact hR.ne_head n (hsub.subset hn)
    · exact hR.nodup.sublist hsub
    · have he : (st.lowIds L k ++ rest).map stU.keyAt =
          (st.lowIds L k ++ rest).map st.keyAt :=
        List.map_congr_left (fun n _ => hUkey n)
      rw [he]
      exact List.Pairwise.sublist (hsub.map st.keyAt) hR.sorted
    · intro n hn
      rw [hUlevel]
      exact hR.level_pos n (hsub.subset hn)
    · intro n hn
      rw [hUf2, hUlevel]
      exact hR.level_le n (hsub.subset hn)
    · intro i hi
      rw [hUf2] at hi
      rw [hUf1]
      have hchEq : stU.chainIds (st.lowIds L k ++ rest) i =
          st.belowAt L k i ++
            rest.filter (fun n => decide (i < st.levelOf n)) := by
        unfold chainIds
        rw [List.filter_append]
        congr 1
        · unfold belowAt
          apply List.filter_congr
          intro n hn
          rw [hUlevel]
        · apply List.filter_congr
          intro n hn
          rw [hUlevel]
      rw [hchEq]
      exact hUchains i hi
  obtain ⟨hRE, hEml, hEhead, hEMA, hEcoins, hElen, hEkey⟩ :=
    shrink_represents hRU
  refine ⟨c, rest, hcr, hck, ?_, ?_, ?_, ?_, ?_, ?_, ?_, ?_⟩
  · rw [hdisp]
  · rw [hdisp]
    exact hRE
  · rw [hdisp]
    show (st.lowIds L k ++ rest).map (SkipList.shrink stU).keyAt = _
    have he : (st.lowIds L k ++ rest).map (SkipList.shrink stU).keyAt =
        (st.lowIds L k ++ rest).map st.keyAt := by
      apply List.map_congr_left
      intro n hn
      rw [hEkey n, hUkey n]
    rw [he, List.map_append]
  · rw [hdisp]
    show (SkipList.shrink stU).maxLevel ≤ st.maxLevel
    rw [← hUf2]
    exact hEml
  · rw [hdisp]
    show (SkipList.shrink stU).maxAllowedLevel = st.maxAllowedLevel
    rw [hEMA, hUf3]
  · rw [hdisp]
    show (SkipList.shrink stU).coins = st.coins
    rw [hEcoins, hUf4]
  · rw [hdisp]
    show (SkipList.shrink stU).nodes.length = st.nodes.length
    rw [hElen, hUf5]
  · rw [hdisp]
    show (SkipList.shrink stU).head = st.head
    rw [hEhead, hUf1]

/-! ### Iteration and per-level observation -/

theorem levelIdsFrom_spec (st : SkipList α) (i : Nat) :
    ∀ (M : List Nat) (n fuel : Nat), M.length < fuel →
    IsChain st i n M →
    st.levelIdsFrom i fuel (st.nextPtr n i) = M := by
  intro M
  induction M with
  | nil =>
    intro n fuel hf hch
    unfold IsChain at hch
    rw [hch]
    cases fuel with
    | zero => omega
    | succ f => rfl
  | cons m M ih =>
    intro n fuel hf hch
    unfold IsChain at hch
    rw [hch.1]
    cases fuel with
    | zero =>
      rw [List.length_cons] at hf
      omega
    | succ f =>
      rw [levelIdsFrom]
      congr 1
      refine ih m f ?_ hch.2
      rw [List.length_cons] at hf
      omega

theorem chainIds_length_le {st : SkipList α} {L : List Nat}
    (hR : Represents st L) (i : Nat) :
    (st.chainIds L i).length ≤ st.nodes.length := by
  have h1 : (st.chainIds L i).length ≤ L.length :=
    (List.filter_sublist L).length_le
  have h2 : L.length ≤ st.nodes.length :=
    length_le_of_nodup_lt L st.nodes.length hR.mem_lt hR.nodup
  omega

theorem levelIds_eq {st : SkipList α} {L : List Nat} (hR : Represents st L)
    (i : Nat) (hi : i < st.maxLevel) :
    st.levelIds i = st.chainIds L i := by
  unfold levelIds
  refine levelIdsFrom_spec st i _ st.head _ ?_ (hR.chains i hi)
  have := chainIds_length_le hR i
  omega

theorem levelIds_ge {st : SkipList α} {L : List Nat} (hR : Represents st L)
    (i : Nat) (hi : st.maxLevel ≤ i) :
    st.levelIds i = [] := by
  unfold levelIds
  have hlen : (st.nextList st.head).length = st.maxLevel := hR.head_len
  have hnone : st.nextPtr st.head i = none := by
    unfold nextPtr
    rw [List.getD_eq_getElem?_getD, List.getElem?_eq_none (by omega)]
    rfl
  rw [hnone]
  rfl

theorem chainIds_zero {st : SkipList α} {L : List Nat}
    (hR : Represents st L) : st.chainIds L 0 = L := by
  unfold chainIds
  rw [List.filter_eq_self]
  intro n hn
  have := hR.level_pos n hn
  simp
  omega

theorem toList_eq {st : SkipList α} {L : List Nat} (hR : Represents st L) :
    st.toList = L.map st.keyAt := by
  unfold toList
  rw [levelIds_eq hR 0 hR.one_le, chainIds_zero hR]

theorem levelIds_sublist {st : SkipList α} {L : List Nat}
    (hR : Represents st L) (i : Nat) :
    List.Sublist (st.levelIds (i + 1)) (st.levelIds i) := by
  by_cases hi : i + 1 < st.maxLevel
  · rw [levelIds_eq hR (i + 1) hi, levelIds_eq hR i (by omega)]
    unfold chainIds
    apply List.monotone_filter_right
    intro a ha
    have h1 : i + 1 < st.levelOf a := of_decide_eq_true ha
    exact decide_eq_true (by omega)
  · rw [levelIds_ge hR (i + 1) (by omega)]
    exact List.nil_sublist _

/-! ### The freshly constructed list -/

theorem init_represents (ma : Nat) (coins : List Bool) :
    Represents (SkipList.init (α := α) ma coins) [] := by
  refine ⟨?_, ?_, ?_, ?_, ?_, ?_, ?_, ?_, ?_, ?_⟩
  · show 0 < 1
    omega
  · rfl
  · show 1 ≤ 1
    omega
  · intro n hn
    cases hn
  · intro n hn
    cases hn
  · exact List.nodup_nil
  · exact List.Pairwise.nil
  · intro n hn
    cases hn
  · intro n hn
    cases hn
  · intro i hi
    have hi0 : i = 0 := by
      show i = 0
      have : i < 1 := hi
      omega
    rw [hi0]
    show IsChain (SkipList.init ma coins) 0 0 []
    unfold IsChain
    rfl

/-! ### Membership bookkeeping for call sequences -/

theorem map_low_high (st : SkipList α) (L : List Nat) (k : α) :
    (st.lowIds L k).map st.keyAt ++ (st.highIds L k).map st.keyAt =
      L.map st.keyAt := by
  rw [← List.map_append, lowIds_append_highIds]

theorem mem_middle_iff (A B : List α) (j k : α) :
    k ∈ A ++ j :: B ↔ k = j ∨ k ∈ A ++ B := by
  rw [List.mem_append, List.mem_cons, List.mem_append]
  tauto

theorem not_mem_erased {st : SkipList α} {L : List Nat} (hR : Represents st L)
    (k : α) {c : Nat} {rest : List Nat} (hcr : st.highIds L k = c :: rest)
    (hck : st.keyAt c = k) :
    ¬ k ∈ (st.lowIds L k).map st.keyAt ++ rest.map st.keyAt := by
  intro hmem
  rcases List.mem_append.mp hmem with h | h
  · obtain ⟨n, hn, he⟩ := List.mem_map.mp h
    have := lowIds_key_lt st L k n hn
    rw [he] at this
    exact lt_irrefl k this
  · obtain ⟨n, hn, he⟩ := List.mem_map.mp h
    have hpw : ((st.highIds L k).map st.keyAt).Pairwise (· < ·) := by
      have hsl : List.Sublist ((st.highIds L k).map st.keyAt)
          (L.map st.keyAt) :=
        ((List.dropWhile_suffix _).sublist).map st.keyAt
      exact List.Pairwise.sublist hsl hR.sorted
    rw [hcr, List.map_cons, List.pairwise_cons] at hpw
    have := hpw.1 (st.keyAt n) (List.mem_map_of_mem st.keyAt hn)
    rw [hck, he] at this
    exact lt_irrefl k this

/-- One step of the abstract membership bookkeeping. -/
def presStep (k : α) (b : Bool) : SkipList.Op α → Bool
  | SkipList.Op.ins j => if j = k then true else b
  | SkipList.Op.del j => if j = k then false else b

theorem present_eq_foldl (k : α) (ops : List (SkipList.Op α)) :
    SkipList.present k ops = ops.foldl (presStep k) false := by
  unfold present presStep
  rfl

theorem run_master :
    ∀ (ops : List (SkipList.Op α)) (st : SkipList α) (L : List Nat),
      Represents st L →
      ∃ L2, Represents (st.run ops) L2 ∧
        (st.run ops).maxAllowedLevel = st.maxAllowedLevel ∧
        (st.maxLevel ≤ st.maxAllowedLevel →
          (st.run ops).maxLevel ≤ (st.run ops).maxAllowedLevel) ∧
        ∀ k, decide (k ∈ L2.map (st.run ops).keyAt) =
          ops.foldl (presStep k) (decide (k ∈ L.map st.keyAt)) := by
  intro ops
  induction ops with
  | nil =>
    intro st L hR
    exact ⟨L, hR, rfl, fun h => h, fun k => rfl⟩
  | cons op rest ih =>
    intro st L hR
    have hrun : st.run (op :: rest) = (st.applyOp op).run rest := rfl
    rw [hrun]
    cases op with
    | ins j =>
      by_cases hmem : j ∈ L.map st.keyAt
      · have heq : st.applyOp (SkipList.Op.ins j) = st := insert_eq_self hR j hmem
        rw [heq]
        obtain ⟨L2, h1, h2, h3, h4⟩ := ih st L hR
        refine ⟨L2, h1, h2, h3, ?_⟩
        intro k
        rw [h4 k, List.foldl_cons]
        congr 1
        show decide (k ∈ L.map st.keyAt) =
          if j = k then true else decide (k ∈ L.map st.keyAt)
        by_cases hjk : j = k
        · rw [if_pos hjk]
          exact decide_eq_true (hjk ▸ hmem)
        · rw [if_neg hjk]
      · have heq : st.applyOp (SkipList.Op.ins j) =
            st.insertNew j ((List.range st.maxLevel).map (st.predAt L j)) :=
          insert_eq_insertNew hR j hmem
        rw [heq]
        obtain ⟨hRp, hmap, hML, hMA, hcoins, hhead, hlen⟩ := insertNew_spec hR j hmem
        obtain ⟨L2, h1, h2, h3, h4⟩ := ih _ _ hRp
        refine ⟨L2, h1, by rw [h2, hMA], ?_, ?_⟩
        · intro hb
          refine h3 ?_
          rw [hML, hMA]
          have hrb := randomLevel_bounds st.coins st.maxLevel st.maxAllowedLevel
          have h1le := hR.one_le
          omega
        · intro k
          rw [h4 k, List.foldl_cons]
          congr 1
          show decide (k ∈ _) = if j = k then true else decide (k ∈ L.map st.keyAt)
          rw [hmap]
          have hiff : (k ∈ (st.lowIds L j).map st.keyAt ++
              j :: (st.highIds L j).map st.keyAt) ↔
              (k = j ∨ k ∈ L.map st.keyAt) := by
            rw [mem_middle_iff, map_low_high]
          by_cases hjk : j = k
          · rw [if_pos hjk]
            exact decide_eq_true (hiff.mpr (Or.inl hjk.symm))
          · rw [if_neg hjk]
            rw [decide_eq_decide]
            rw [hiff]
            constructor
            · rintro (h | h)
              · exact absurd h.symm hjk
              · exact h
            · intro h
              exact Or.inr h
    | del j =>
      by_cases hmem : j ∈ L.map st.keyAt
      · obtain ⟨c, rest2, hcr, hck, hT, hRp, hmap, hMLle, hMA, hcoins, hlen,
          hhead⟩ := erase_mem_spec hR j hmem
        have heq : st.applyOp (SkipList.Op.del j) = (st.erase j).2 := rfl
        rw [heq]
        obtain ⟨L2, h1, h2, h3, h4⟩ := ih _ _ hRp
        refine ⟨L2, h1, by rw [h2, hMA], ?_, ?_⟩
        · intro hb
          refine h3 ?_
          rw [hMA]
          omega
        · intro k
          rw [h4 k, List.foldl_cons]
          congr 1
          show decide (k ∈ _) = if j = k then false else decide (k ∈ L.map st.keyAt)
          rw [hmap]
          by_cases hjk : j = k
          · rw [if_pos hjk]
            apply decide_eq_false
            exact fun hx => not_mem_erased hR j hcr hck (hjk ▸ hx)
          · rw [if_neg hjk]
            rw [decide_eq_decide]
            have hsplitmap : (st.lowIds L j).map st.keyAt ++
                j :: rest2.map st.keyAt = L.map st.keyAt := by
              have hL1 : st.lowIds L j ++ c :: rest2 = L := by
                rw [← hcr]
                exact lowIds_append_highIds st L j
              calc (st.lowIds L j).map st.keyAt ++ j :: rest2.map st.keyAt
                  = (st.lowIds L j).map st.keyAt ++
                    (c :: rest2).map st.keyAt := by
                    rw [List.map_cons, hck]
                _ = (st.lowIds L j ++ c :: rest2).map st.keyAt := by
                    rw [List.map_append]
                _ = L.map st.keyAt := by rw [hL1]
            rw [← hsplitmap, mem_middle_iff]
            constructor
            · intro h
              exact Or.inr h
            · rintro (h | h)
              · exact absurd h.symm hjk
              · exact h
      · have heq2 : st.erase j = (false, st) := erase_not_mem hR j hmem
        have heq : st.applyOp (SkipList.Op.del j) = st := by
          show (st.erase j).2 = st
          rw [heq2]
        rw [heq]
        obtain ⟨L2, h1, h2, h3, h4⟩ := ih st L hR
        refine ⟨L2, h1, h2, h3, ?_⟩
        intro k
        rw [h4 k, List.foldl_cons]
        congr 1
        show decide (k ∈ L.map st.keyAt) =
          if j = k then false else decide (k ∈ L.map st.keyAt)
        by_cases hjk : j = k
        · rw [if_pos hjk]
          apply decide_eq_false
          exact fun hx => hmem (hjk ▸ hx)
        · rw [if_neg hjk]

/-! ### Remaining support lemmas -/

theorem toList_init (ma : Nat) (coins : List Bool) :
    (SkipList.init (α := α) ma coins).toList = [] := by
  rw [toList_eq (init_represents ma coins)]
  rfl

theorem shrinkAux_nil : ∀ ml, (shrinkAux ml ([] : List (Option Nat))).2 = [] := by
  intro ml
  induction ml with
  | zero => rfl
  | succ m ih =>
    cases m with
    | zero => rfl
    | succ m2 =>
      rw [shrinkAux,
        if_pos (show ([] : List (Option Nat)).getD (m2 + 1) none = none from rfl)]
      exact ih

theorem shrink_post (st4 : SkipList α) (h1 : 1 ≤ st4.maxLevel) :
    (SkipList.shrink st4).maxLevel = 1 ∨
      (SkipList.shrink st4).nextPtr (SkipList.shrink st4).head
        ((SkipList.shrink st4).maxLevel - 1) ≠ none := by
  have hpost := shrinkAux_post st4.maxLevel (st4.nextList st4.head) h1
  rcases hpost with h | h
  · left
    exact h
  · right
    by_cases hhl : st4.head < st4.nodes.length
    · have hnx : (SkipList.shrink st4).nextList (SkipList.shrink st4).head =
          (shrinkAux st4.maxLevel (st4.nextList st4.head)).2 :=
        nextList_of_setNodeNext_self st4 (SkipList.shrink st4) st4.head _ rfl hhl
      unfold nextPtr
      rw [hnx]
      exact h
    · exfalso
      have hnil : st4.nextList st4.head = [] := by
        unfold nextList
        rw [List.getElem?_eq_none (by omega)]
      rw [hnil, shrinkAux_nil] at h
      exact h rfl

theorem erase_result (st : SkipList α) (k : α) :
    st.erase k = (false, st) ∨
    ∃ m, st.erase k = (true, SkipList.shrink (SkipList.unlinkLoop m st
      (st.searchLevels k st.head st.maxLevel).2.enum)) := by
  have hbody : st.erase k =
      (match st.nextPtr (st.searchLevels k st.head st.maxLevel).1 0 with
       | none => (false, st)
       | some m =>
         if st.keyAt m = k then
           (true, SkipList.shrink (SkipList.unlinkLoop m st
             (st.searchLevels k st.head st.maxLevel).2.enum))
         else (false, st)) := rfl
  rw [hbody]
  cases st.nextPtr (st.searchLevels k st.head st.maxLevel).1 0 with
  | none => exact Or.inl rfl
  | some m =>
    by_cases hkm : st.keyAt m = k
    · right
      refine ⟨m, ?_⟩
      show (if st.keyAt m = k then _ else (false, st)) = _
      rw [if_pos hkm]
    · left
      show (if st.keyAt m = k then _ else (false, st)) = (false, st)
      rw [if_neg hkm]

/-! ### A small concrete list: the sentinel plus the single key 5 at level 1.
It is the state reached by inserting 5 into a fresh list whose first coin
draw fails. -/

def exList : SkipList Nat :=
  { nodes := [⟨0, [some 1]⟩, ⟨5, [none]⟩], head := 0, maxLevel := 1,
    maxAllowedLevel := 4, coins := [] }

theorem exList_represents : SkipList.Represents exList [1] := by
  refine ⟨?_, ?_, ?_, ?_, ?_, ?_, ?_, ?_, ?_, ?_⟩
  · decide
  · decide
  · decide
  · decide
  · decide
  · decide
  · decide
  · decide
  · decide
  · intro i hi
    have hml : exList.maxLevel = 1 := rfl
    have hi0 : i = 0 := by omega
    subst hi0
    have hc : SkipList.chainIds exList [1] 0 = [1] := by decide
    show SkipList.IsChain exList 0 exList.head (SkipList.chainIds exList [1] 0)
    rw [hc]
    show exList.nextPtr 0 0 = some 1 ∧ SkipList.IsChain exList 0 1 []
    refine ⟨by decide, ?_⟩
    show exList.nextPtr 1 0 = none
    decide

theorem represents_observables {st : SkipList α} {L : List Nat}
    (hR : Represents st L) :
    st.toList.Pairwise (· < ·) ∧ st.toList.Nodup ∧
    ∀ i, List.Sublist (st.levelIds (i + 1)) (st.levelIds i) := by
  refine ⟨?_, ?_, levelIds_sublist hR⟩
  · rw [toList_eq hR]
    exact hR.sorted
  · rw [toList_eq hR]
    exact hR.sorted.imp (fun h => ne_of_lt h)

end SkipList

/-! ## The claims -/

/-- C1: for every sequence of insert and erase operations applied to a freshly
constructed list, `contains k` returns true if and only if `k` was inserted at
some point in the sequence and not subsequently erased. -/
theorem claim_C1 (ma : Nat) (coins : List Bool)
    (ops : List (SkipList.Op α)) (k : α) :
    ((SkipList.init (α := α) ma coins).run ops).contains k =
      SkipList.present k ops := by
  obtain ⟨L2, h1, h2, h3, h4⟩ := SkipList.run_master ops
    (SkipList.init ma coins) [] (SkipList.init_represents ma coins)
  rw [SkipList.contains_spec h1 k, h4 k, SkipList.present_eq_foldl]
  congr 1

/-- C2: on a reachable list, `erase k` returns false and leaves the iteration
sequence unchanged when `k` is absent, and returns true and removes exactly the
one occurrence of `k` when it is present. -/
theorem claim_C2 (st : SkipList α) (L : List Nat) (k : α)
    (hR : SkipList.Represents st L) :
    (k ∉ st.toList → st.erase k = (false, st)) ∧
    (k ∈ st.toList → (st.erase k).1 = true ∧
      (st.erase k).2.toList = st.toList.erase k) := by
  rw [SkipList.toList_eq hR]
  constructor
  · intro hk
    exact SkipList.erase_not_mem hR k hk
  · intro hk
    obtain ⟨c, rest2, hcr, hck, hT, hRp, hmap, _, _, _, _, _⟩ :=
      SkipList.erase_mem_spec hR k hk
    refine ⟨hT, ?_⟩
    rw [SkipList.toList_eq hRp, hmap]
    have hL0 : st.lowIds L k ++ c :: rest2 = L := by
      rw [← hcr]
      exact SkipList.lowIds_append_highIds st L k
    have hL1 : (st.lowIds L k).map st.keyAt ++
        st.keyAt c :: rest2.map st.keyAt = L.map st.keyAt := by
      calc (st.lowIds L k).map st.keyAt ++ st.keyAt c :: rest2.map st.keyAt
          = (st.lowIds L k ++ c :: rest2).map st.keyAt := by
            rw [List.map_append, List.map_cons]
        _ = L.map st.keyAt := by rw [hL0]
    rw [← hL1, List.erase_append_right]
    · rw [hck, List.erase_cons_head]
    · intro hmem
      obtain ⟨n, hn, he⟩ := List.mem_map.mp hmem
      have := SkipList.lowIds_key_lt st L k n hn
      rw [he] at this
      exact lt_irrefl k this

/-- C3: on a reachable list that already holds `k`, `insert k` is a no-op, so
inserting the same key twice yields exactly the iteration sequence of
inserting it once. -/
theorem claim_C3 (st : SkipList α) (L : List Nat) (k : α)
    (hR : SkipList.Represents st L) :
    (k ∈ st.toList → st.insert k = st) ∧
    ((st.insert k).insert k).toList = (st.insert k).toList := by
  rw [SkipList.toList_eq hR]
  constructor
  · intro hk
    exact SkipList.insert_eq_self hR k hk
  · have hex : ∃ L1, SkipList.Represents (st.insert k) L1 ∧
        k ∈ L1.map (st.insert k).keyAt := by
      by_cases hmem : k ∈ L.map st.keyAt
      · refine ⟨L, ?_, ?_⟩
        · rw [SkipList.insert_eq_self hR k hmem]
          exact hR
        · rw [SkipList.insert_eq_self hR k hmem]
          exact hmem
      · rw [SkipList.insert_eq_insertNew hR k hmem]
        obtain ⟨hRp, hmap, _, _, _, _, _⟩ := SkipList.insertNew_spec hR k hmem
        refine ⟨_, hRp, ?_⟩
        rw [hmap]
        exact List.mem_append_right _ (List.mem_cons_self _ _)
    obtain ⟨L1, hR1, hk1⟩ := hex
    rw [SkipList.insert_eq_self hR1 k hk1]

/-- C4: insert, erase and move preserve the structural invariants of a
reachable list (strictly increasing keys along level 0, no duplicates, each
level's node sequence a sub-sequence of the one below), so iteration always
yields strictly ascending duplicate-free keys. -/
theorem claim_C4 (st : SkipList α) (L : List Nat) (k : α)
    (hR : SkipList.Represents st L) :
    (st.toList.Pairwise (· < ·) ∧ st.toList.Nodup ∧
      ∀ i, List.Sublist (st.levelIds (i + 1)) (st.levelIds i)) ∧
    (∃ L1, SkipList.Represents (st.insert k) L1 ∧
      (st.insert k).toList.Pairwise (· < ·) ∧
      ∀ i, List.Sublist ((st.insert k).levelIds (i + 1))
        ((st.insert k).levelIds i)) ∧
    (∃ L2, SkipList.Represents (st.erase k).2 L2 ∧
      (st.erase k).2.toList.Pairwise (· < ·) ∧
      ∀ i, List.Sublist ((st.erase k).2.levelIds (i + 1))
        ((st.erase k).2.levelIds i)) ∧
    SkipList.Represents (SkipList.moveCtor st).1 L ∧
    SkipList.Represents (SkipList.moveCtor st).2 [] := by
  have hins : ∃ L1, SkipList.Represents (st.insert k) L1 := by
    by_cases hmem : k ∈ L.map st.keyAt
    · rw [SkipList.insert_eq_self hR k hmem]
      exact ⟨L, hR⟩
    · rw [SkipList.insert_eq_insertNew hR k hmem]
      exact ⟨_, (SkipList.insertNew_spec hR k hmem).1⟩
  have hers : ∃ L2, SkipList.Represents (st.erase k).2 L2 := by
    by_cases hmem : k ∈ L.map st.keyAt
    · obtain ⟨c, r2, _, _, _, hRp, _, _, _, _, _, _⟩ :=
        SkipList.erase_mem_spec hR k hmem
      exact ⟨_, hRp⟩
    · rw [SkipList.erase_not_mem hR k hmem]
      exact ⟨L, hR⟩
  obtain ⟨L1, h1⟩ := hins
  obtain ⟨L2, h2⟩ := hers
  obtain ⟨o1, o2, o3⟩ := SkipList.represents_observables hR
  obtain ⟨p1, p2, p3⟩ := SkipList.represents_observables h1
  obtain ⟨q1, q2, q3⟩ := SkipList.represents_observables h2
  exact ⟨⟨o1, o2, o3⟩, ⟨L1, h1, p1, p3⟩, ⟨L2, h2, q1, q3⟩, hR,
    SkipList.init_represents _ _⟩

/-- C5: `randomLevel` always returns a level between 1 and the configured
maximum (when that maximum is at least 1), and never more than the current
height plus one, whatever the draws are. -/
theorem claim_C5 (coins : List Bool) (ml ma : Nat) (hma : 1 ≤ ma) :
    1 ≤ (SkipList.randomLevel coins ml ma).1 ∧
    (SkipList.randomLevel coins ml ma).1 ≤ ma ∧
    (SkipList.randomLevel coins ml ma).1 ≤ ml + 1 := by
  have h := SkipList.randomLevel_bounds coins ml ma
  omega

/-- C5 witness at a concrete draw sequence. -/
theorem claim_C5_witness :
    1 ≤ (SkipList.randomLevel [true, true, false] 1 3).1 ∧
    (SkipList.randomLevel [true, true, false] 1 3).1 ≤ 3 ∧
    (SkipList.randomLevel [true, true, false] 1 3).1 ≤ 1 + 1 :=
  claim_C5 [true, true, false] 1 3 (by decide)

/-- C6: starting from a fresh list with cap at least 1, any sequence of
inserts and erases keeps the height between 1 and the cap, and no node spans
more levels than the height; moves keep the destination intact and reset the
source to height 1 with its cap unchanged. -/
theorem claim_C6 (ma : Nat) (coins : List Bool) (ops : List (SkipList.Op α))
    (hma : 1 ≤ ma) :
    (1 ≤ ((SkipList.init (α := α) ma coins).run ops).maxLevel ∧
      ((SkipList.init (α := α) ma coins).run ops).maxLevel ≤ ma ∧
      ∃ L2, SkipList.Represents ((SkipList.init (α := α) ma coins).run ops) L2 ∧
        ∀ n ∈ ((SkipList.init (α := α) ma coins).run ops).head :: L2,
          ((SkipList.init (α := α) ma coins).run ops).levelOf n ≤
            ((SkipList.init (α := α) ma coins).run ops).maxLevel) ∧
    (∀ t : SkipList α, (SkipList.moveCtor t).1 = t ∧
      (SkipList.moveCtor t).2.maxLevel = 1 ∧
      (SkipList.moveCtor t).2.maxAllowedLevel = t.maxAllowedLevel) := by
  obtain ⟨L2, h1, h2, h3, h4⟩ := SkipList.run_master ops
    (SkipList.init ma coins) [] (SkipList.init_represents ma coins)
  refine ⟨⟨h1.one_le, ?_, L2, h1, ?_⟩, ?_⟩
  · have hb : (SkipList.init (α := α) ma coins).maxLevel ≤
        (SkipList.init (α := α) ma coins).maxAllowedLevel := hma
    have := h3 hb
    rw [h2] at this
    exact this
  · intro n hn
    rcases List.mem_cons.mp hn with heq | hm
    · rw [heq]
      exact le_of_eq h1.head_len
    · exact h1.level_le n hm
  · intro t
    exact ⟨rfl, rfl, rfl⟩

/-- C6 witness: one insertion into a fresh two-level list. -/
theorem claim_C6_witness :
    (1 ≤ ((SkipList.init (α := Nat) 2 []).run [SkipList.Op.ins 7]).maxLevel ∧
      ((SkipList.init (α := Nat) 2 []).run [SkipList.Op.ins 7]).maxLevel ≤ 2 ∧
      ∃ L2, SkipList.Represents
          ((SkipList.init (α := Nat) 2 []).run [SkipList.Op.ins 7]) L2 ∧
        ∀ n ∈ ((SkipList.init (α := Nat) 2 []).run [SkipList.Op.ins 7]).head ::
            L2,
          ((SkipList.init (α := Nat) 2 []).run [SkipList.Op.ins 7]).levelOf n ≤
            ((SkipList.init (α := Nat) 2 []).run [SkipList.Op.ins 7]).maxLevel) ∧
    (∀ t : SkipList Nat, (SkipList.moveCtor t).1 = t ∧
      (SkipList.moveCtor t).2.maxLevel = 1 ∧
      (SkipList.moveCtor t).2.maxAllowedLevel = t.maxAllowedLevel) :=
  claim_C6 2 [] [SkipList.Op.ins 7] (by decide)

/-- C7: after a successful erase the height is minimal: either it is 1 or the
sentinel's topmost forward pointer is not null, because the shrink loop runs
until that holds. -/
theorem claim_C7 (st : SkipList α) (k : α) (hml : 1 ≤ st.maxLevel)
    (htrue : (st.erase k).1 = true) :
    (st.erase k).2.maxLevel = 1 ∨
      (st.erase k).2.nextPtr (st.erase k).2.head
        ((st.erase k).2.maxLevel - 1) ≠ none := by
  rcases SkipList.erase_result st k with h | ⟨m, h⟩
  · rw [h] at htrue
    cases htrue
  · rw [h]
    show (SkipList.shrink _).maxLevel = 1 ∨ _
    apply SkipList.shrink_post
    have hU := SkipList.unlinkLoop_fields m st
      (st.searchLevels k st.head st.maxLevel).2.enum
    rw [hU.2.1]
    exact hml

/-- C7 witness: erasing the only key of a one-level list. -/
theorem claim_C7_witness :
    (SkipList.exList.erase 5).2.maxLevel = 1 ∨
      (SkipList.exList.erase 5).2.nextPtr (SkipList.exList.erase 5).2.head
        ((SkipList.exList.erase 5).2.maxLevel - 1) ≠ none :=
  claim_C7 SkipList.exList 5 (by decide) (by decide)

/-- C8: move construction and move assignment hand the whole structure to the
destination unchanged and leave the source exactly as a freshly constructed
empty list with the original cap; self-move-assignment changes nothing. -/
theorem claim_C8 (st d s : SkipList α) :
    (SkipList.moveCtor st).1 = st ∧
    (SkipList.moveCtor st).1.toList = st.toList ∧
    (SkipList.moveCtor st).2 = SkipList.init st.maxAllowedLevel st.coins ∧
    (SkipList.moveCtor st).2.toList = [] ∧
    SkipList.Represents (SkipList.moveCtor st).2 [] ∧
    SkipList.moveAssign false d s =
      (s, SkipList.init s.maxAllowedLevel s.coins) ∧
    (SkipList.moveAssign false d s).1.toList = s.toList ∧
    (SkipList.moveAssign false d s).2.toList = [] ∧
    SkipList.moveAssign true st st = (st, st) :=
  ⟨rfl, rfl, rfl, SkipList.toList_init _ _, SkipList.init_represents _ _,
    rfl, rfl, SkipList.toList_init _ _, rfl⟩

/-- C9 (amended): on a reachable list the dump produces, for each active level
from topmost down to 0, one line of the form `Level i: ` followed by each
ordered key reachable at that level and a trailing space; the reachable keys
at each level are strictly ascending.  (The code also first prints a header
line naming the level count and the probability, and mutates nothing.) -/
theorem claim_C9 [ToString α] (st : SkipList α) (L : List Nat)
    (hR : SkipList.Represents st L) :
    st.printByLevels = (List.range st.maxLevel).reverse.map (fun i =>
      "Level " ++ toString i ++ ": " ++
        String.join (((st.chainIds L i).map st.keyAt).map
          (fun x => toString x ++ " "))) ∧
    ∀ i, ((st.chainIds L i).map st.keyAt).Pairwise (· < ·) := by
  constructor
  · unfold SkipList.printByLevels
    apply List.map_congr_left
    intro i hi
    have hi2 : i < st.maxLevel :=
      List.mem_range.mp (List.mem_reverse.mp hi)
    rw [SkipList.levelIds_eq hR i hi2, List.map_map]
    rfl
  · intro i
    have hsl : List.Sublist ((st.chainIds L i).map st.keyAt)
        (L.map st.keyAt) :=
      (List.filter_sublist L).map st.keyAt
    exact List.Pairwise.sublist hsl hR.sorted

/-- C9 witness at the concrete one-key list. -/
theorem claim_C9_witness :
    SkipList.exList.printByLevels =
      (List.range SkipList.exList.maxLevel).reverse.map (fun i =>
        "Level " ++ toString i ++ ": " ++
          String.join (((SkipList.exList.chainIds [1] i).map
            SkipList.exList.keyAt).map (fun x => toString x ++ " "))) ∧
    ∀ i, ((SkipList.exList.chainIds [1] i).map
      SkipList.exList.keyAt).Pairwise (· < ·) :=
  claim_C9 SkipList.exList [1] SkipList.exList_represents

/-- C9 counterexample to the claim as stated: the list holding exactly the key
5 prints its level-0 line as `Level 0: 5 `, not as the bare key sequence
`5`. -/
theorem claim_C9_cex :
    SkipList.exList.toList = [5] ∧ SkipList.exList.printByLevels ≠ ["5"] := by
  constructor
  · decide
  · decide

/-- C10: inserting a key already present consumes no randomness: the coin
stream is untouched and every later run behaves exactly as if the duplicate
insert had never happened. -/
theorem claim_C10 (st : SkipList α) (L : List Nat) (k : α)
    (hR : SkipList.Represents st L) (hk : k ∈ st.toList) :
    (st.insert k).coins = st.coins ∧
    ∀ ops, (st.insert k).run ops = st.run ops := by
  rw [SkipList.toList_eq hR] at hk
  rw [SkipList.insert_eq_self hR k hk]
  exact ⟨rfl, fun ops => rfl⟩

/-- C10 witness at the concrete one-key list. -/
theorem claim_C10_witness :
    (SkipList.exList.insert 5).coins = SkipList.exList.coins ∧
    ∀ ops, (SkipList.exList.insert 5).run ops = SkipList.exList.run ops :=
  claim_C10 SkipList.exList [1] 5 SkipList.exList_represents (by decide)

/-- C2 witness at the concrete one-key list. -/
theorem claim_C2_witness :
    ((5 : Nat) ∉ SkipList.exList.toList →
      SkipList.exList.erase 5 = (false, SkipList.exList)) ∧
    ((5 : Nat) ∈ SkipList.exList.toList →
      (SkipList.exList.erase 5).1 = true ∧
      (SkipList.exList.erase 5).2.toList = SkipList.exList.toList.erase 5) :=
  claim_C2 SkipList.exList [1] 5 SkipList.exList_represents

/-- C3 witness at the concrete one-key list. -/
theorem claim_C3_witness :
    ((5 : Nat) ∈ SkipList.exList.toList →
      SkipList.exList.insert 5 = SkipList.exList) ∧
    ((SkipList.exList.insert 5).insert 5).toList =
      (SkipList.exList.insert 5).toList :=
  claim_C3 SkipList.exList [1] 5 SkipList.exList_represents

/-- C4 witness at the concrete one-key list. -/
theorem claim_C4_witness :
    (SkipList.exList.toList.Pairwise (· < ·) ∧
      SkipList.exList.toList.Nodup ∧
      ∀ i, List.Sublist (SkipList.exList.levelIds (i + 1))
        (SkipList.exList.levelIds i)) ∧
    (∃ L1, SkipList.Represents (SkipList.exList.insert 7) L1 ∧
      (SkipList.exList.insert 7).toList.Pairwise (· < ·) ∧
      ∀ i, List.Sublist ((SkipList.exList.insert 7).levelIds (i + 1))
        ((SkipList.exList.insert 7).levelIds i)) ∧
    (∃ L2, SkipList.Represents (SkipList.exList.erase 7).2 L2 ∧
      (SkipList.exList.erase 7).2.toList.Pairwise (· < ·) ∧
      ∀ i, List.Sublist ((SkipList.exList.erase 7).2.levelIds (i + 1))
        ((SkipList.exList.erase 7).2.levelIds i)) ∧
    SkipList.Represents (SkipList.moveCtor SkipList.exList).1 [1] ∧
    SkipList.Represents (SkipList.moveCtor SkipList.exList).2 [] :=
  claim_C4 SkipList.exList [1] 7 SkipList.exList_represents
